import Mathlib

/-!
Verification of the `interval_map<K,V>` class from `Interval_map_solution.cpp`.

The C++ class keeps a default value `m_valBegin` and an ordered boundary store
`m_map : std::map<K,V>`.  We embed the ordered map as a list of key/value pairs
kept in strictly ascending key order (the well-formedness predicate
`keysSorted`); `std::map` iterators become positions in that list.  Every
operation of the class (`assign`, `operator[]`, `is_canonical`, `size`) is
translated line by line below.
-/

set_option maxHeartbeats 1600000
set_option linter.unusedSectionVars false

namespace IntervalMapSpec

/-- The state of an `interval_map<K,V>` object: the field `m_valBegin` and the
ordered boundary store `m_map`, modelled as an ascending association list. -/
structure interval_map (K V : Type) where
  m_valBegin : V
  m_map : List (K × V)

variable {K V : Type} [LinearOrder K] [DecidableEq V]

/-- Well-formedness of the `std::map` model: keys strictly ascending. -/
def keysSorted (l : List (K × V)) : Prop :=
  l.Pairwise (fun p q => p.1 < q.1)

instance instDecidableKeysSorted (l : List (K × V)) : Decidable (keysSorted l) :=
  inferInstanceAs (Decidable (l.Pairwise _))

/-- `std::map::insert_or_assign` on the ascending association list. -/
def insertOrAssign : List (K × V) → K → V → List (K × V)
  | [], k, v => [(k, v)]
  | (k1, v1) :: rest, k, v =>
      if k < k1 then (k, v) :: (k1, v1) :: rest
      else if k1 < k then (k1, v1) :: insertOrAssign rest k v
      else (k, v) :: rest

/-- `std::map::erase` of the entry holding key `k` (keys are unique in a
well-formed map, so erasing by key matches erasing by iterator). -/
def eraseKey (l : List (K × V)) (k : K) : List (K × V) :=
  l.filter (fun p => decide (p.1 ≠ k))

/-- The scanning loop of `assign` (source lines 50-92).  It walks the suffix of
the map starting at `lower_bound(keyBegin)` and stops after the first entry
whose key is not less than `keyEnd` (the iterator `iterator_end` of the
source).  It returns the pending `resized` insertion and the list of keys of
the entries pushed into `will_delete`, in iteration order; a later `resized`
assignment overwrites an earlier one, as in the source. -/
def clearLoop (b e : K) (v : V) : List (K × V) → Option (K × V) × List K
  | [] => (none, [])
  | (k, w) :: rest =>
      let step : Option (K × V) × List K :=
        if ¬ b < k ∧ ¬ k < b ∧ w = v then
          match rest with
          | (k2, w2) :: _ => if w2 = v then (none, [k2]) else (none, [])
          | [] => (none, [])
        else if ¬ e < k ∧ w = v then (none, [k])
        else if ¬ k < b ∧ k < e then
          match rest with
          | (k2, _) :: _ => if e < k2 then (some (e, w), [k]) else (none, [k])
          | [] => (none, [k])
        else (none, [])
      if k < e then
        let res := clearLoop b e v rest
        (res.1.orElse (fun _ => step.1), step.2 ++ res.2)
      else step

/-- The clearing block of `assign` (source lines 50-105): run the scan from
`lower_bound(keyBegin)`, apply the pending `resized` insertion, then erase the
collected entries. -/
def clearPhase (l : List (K × V)) (b e : K) (v : V) : List (K × V) :=
  let suffix := l.dropWhile (fun p => decide (p.1 < b))
  let rd := clearLoop b e v suffix
  let l1 := match rd.1 with
    | some r => insertOrAssign l r.1 r.2
    | none => l
  rd.2.foldl (fun acc k => eraseKey acc k) l1

/-- The insertion block of `assign` (source lines 108-129): insert
`(keyBegin, val)`, then merge with the successor and predecessor entries when
they carry the same value.  Note: the source reads `what_after->second` without
checking `what_after != m_map.end()`; when the successor does not exist
(`head? = none` below) the source dereferences the past-the-end iterator.  The
embedding takes the comparison to fail in that case; the separate predicate
`forwardMergeInBounds` records whether the access was in bounds. -/
def insertPhase (l : List (K × V)) (b : K) (v : V) : List (K × V) :=
  let l1 := insertOrAssign l b v
  let l2 := match (l1.dropWhile (fun p => decide (p.1 ≤ b))).head? with
    | some q => if q.2 = v then eraseKey l1 q.1 else l1
    | none => l1
  match (l2.takeWhile (fun p => decide (p.1 < b))).getLast? with
  | some q => if q.2 = v then eraseKey l2 b else l2
  | none => l2

/-- Whether the unguarded successor access `what_after->second` of the
forward-merge step (source line 114) is within bounds for the map state the
insertion block actually runs on. -/
def forwardMergeInBounds (l : List (K × V)) (b : K) (v : V) : Bool :=
  !((insertOrAssign l b v).dropWhile (fun p => decide (p.1 ≤ b))).isEmpty

/-- Front canonicalization of `assign` (source lines 131-135): drop leading
entries whose value equals `m_valBegin`. -/
def frontStrip (valB : V) (l : List (K × V)) : List (K × V) :=
  l.dropWhile (fun p => decide (p.2 = valB))

/-- Tail cleanup of `assign` (source lines 137-160). -/
def tailPhase (valB : V) (l : List (K × V)) : List (K × V) :=
  match l.getLast? with
  | none => l
  | some p =>
    if p.2 = valB then
      if 1 < l.length then
        match l.dropLast.getLast? with
        | none => l
        | some q =>
          if q.2 = valB then
            if l.length = 2 then [] else l.dropLast
          else l
      else []
    else l

/-- Final step of `assign` (source lines 169-173): if the last stored value is
not `m_valBegin`, write `m_valBegin` at `last_key`. -/
def finalPhase (valB : V) (lastKey : K) (l : List (K × V)) : List (K × V) :=
  match l.getLast? with
  | none => l
  | some p => if p.2 = valB then l else insertOrAssign l lastKey valB

/-- `interval_map::assign` (source lines 25-176). -/
def interval_map.assign (m : interval_map K V) (keyBegin keyEnd : K) (v : V) :
    interval_map K V :=
  if ¬ keyBegin < keyEnd then m
  else if m.m_map = [] then
    if v ≠ m.m_valBegin then
      ⟨m.m_valBegin, insertOrAssign (insertOrAssign [] keyEnd m.m_valBegin) keyBegin v⟩
    else m
  else
    let lastKey := match m.m_map.getLast? with
      | some p => if p.1 < keyEnd then keyEnd else p.1
      | none => keyEnd
    let l1 := clearPhase m.m_map keyBegin keyEnd v
    let l2 := insertPhase l1 keyBegin v
    let l3 := frontStrip m.m_valBegin l2
    let l4 := tailPhase m.m_valBegin l3
    if l4 = [] then ⟨m.m_valBegin, l4⟩
    else ⟨m.m_valBegin, finalPhase m.m_valBegin lastKey l4⟩

/-- Whether every iterator access inside one `assign` call is within bounds.
All other successor/predecessor accesses of `assign` are guarded in the
source; the single unguarded one is the forward-merge successor read. -/
def interval_map.assignAccessSafe (m : interval_map K V) (keyBegin keyEnd : K)
    (v : V) : Bool :=
  if ¬ keyBegin < keyEnd then true
  else if m.m_map = [] then true
  else forwardMergeInBounds (clearPhase m.m_map keyBegin keyEnd v) keyBegin v

/-- `interval_map::operator[]` (source lines 179-190): the entry before
`upper_bound(key)`, or `m_valBegin` when `upper_bound(key)` is the first
entry. -/
def interval_map.valueAt (m : interval_map K V) (key : K) : V :=
  match (m.m_map.takeWhile (fun p => decide (p.1 ≤ key))).getLast? with
  | some p => p.2
  | none => m.m_valBegin

/-- Helper of `is_canonical`: the loop over consecutive values
(source lines 203-215). -/
def chainDistinct : V → List (K × V) → Bool
  | _, [] => true
  | w, (_, w2) :: rest => if w2 = w then false else chainDistinct w2 rest

/-- `interval_map::is_canonical` (source lines 193-218). -/
def interval_map.is_canonical (m : interval_map K V) : Bool :=
  match m.m_map with
  | [] => true
  | (_, w) :: rest =>
      if w = m.m_valBegin then false else chainDistinct (K := K) w rest

/-- `interval_map::size` (source lines 221-224). -/
def interval_map.size (m : interval_map K V) : Nat :=
  m.m_map.length

/-- The constructor `interval_map(val)`: empty boundary store. -/
def interval_map.ctor (v : V) : interval_map K V :=
  ⟨v, []⟩

/-- The map states reachable from a freshly constructed map by `assign`
calls. -/
inductive Reachable : interval_map K V → Prop
  | ctor (v : V) : Reachable (interval_map.ctor v)
  | step (m : interval_map K V) (b e : K) (v : V) :
      Reachable m → Reachable (m.assign b e v)

/-! ### Basic lemmas about the embedded map operations -/

theorem insertOrAssign_ne_nil (l : List (K × V)) (k : K) (v : V) :
    insertOrAssign l k v ≠ [] := by
  cases l with
  | nil => simp [insertOrAssign]
  | cons a t =>
      obtain ⟨k1, v1⟩ := a
      simp only [insertOrAssign]
      split
      · simp
      · split <;> simp

theorem mem_insertOrAssign {l : List (K × V)} {k : K} {v : V} {p : K × V} :
    p ∈ insertOrAssign l k v → p ∈ l ∨ p = (k, v) := by
  induction l with
  | nil => intro h; simp [insertOrAssign] at h; exact Or.inr h
  | cons a t ih =>
      obtain ⟨k1, v1⟩ := a
      simp only [insertOrAssign]
      split
      · intro h
        rcases List.mem_cons.1 h with h | h
        · exact Or.inr h
        · exact Or.inl h
      · split
        · intro h
          rcases List.mem_cons.1 h with h | h
          · exact Or.inl (by simp [h])
          · rcases ih h with h | h
            · exact Or.inl (List.mem_cons_of_mem _ h)
            · exact Or.inr h
        · intro h
          rcases List.mem_cons.1 h with h | h
          · exact Or.inr h
          · exact Or.inl (List.mem_cons_of_mem _ h)

theorem keysSorted_insertOrAssign {l : List (K × V)} {k : K} {v : V}
    (hs : keysSorted l) : keysSorted (insertOrAssign l k v) := by
  induction l with
  | nil => simp [insertOrAssign, keysSorted]
  | cons a t ih =>
      obtain ⟨k1, v1⟩ := a
      rw [keysSorted, List.pairwise_cons] at hs
      obtain ⟨h1, ht⟩ := hs
      simp only [insertOrAssign]
      split
      · rename_i hlt
        refine List.Pairwise.cons ?_ (List.Pairwise.cons h1 ht)
        intro q hq
        rcases List.mem_cons.1 hq with rfl | hq
        · exact hlt
        · exact lt_trans hlt (h1 q hq)
      · split
        · rename_i hlt1 hlt2
          refine List.Pairwise.cons ?_ (ih ht)
          intro q hq
          rcases mem_insertOrAssign hq with hq | rfl
          · exact h1 q hq
          · exact hlt2
        · rename_i hlt1 hlt2
          have hk : k = k1 := le_antisymm (not_lt.1 hlt2) (not_lt.1 hlt1)
          refine List.Pairwise.cons ?_ ht
          intro q hq
          simpa [hk] using h1 q hq

theorem mem_eraseKey {l : List (K × V)} {k : K} {p : K × V} :
    p ∈ eraseKey l k → p ∈ l :=
  fun h => (List.filter_sublist l).subset h

theorem keysSorted_eraseKey {l : List (K × V)} (k : K) (hs : keysSorted l) :
    keysSorted (eraseKey l k) :=
  List.Pairwise.sublist (List.filter_sublist l) hs

theorem key_ne_of_mem_eraseKey {l : List (K × V)} {k : K} {p : K × V} :
    p ∈ eraseKey l k → p.1 ≠ k := by
  intro h
  have := (List.mem_filter.1 h).2
  simpa using this

theorem mem_eraseKey_of_ne {l : List (K × V)} {k : K} {p : K × V}
    (hp : p ∈ l) (hne : p.1 ≠ k) : p ∈ eraseKey l k := by
  exact List.mem_filter.2 ⟨hp, by simpa using hne⟩

theorem foldl_eraseKey_sublist (ks : List K) (l : List (K × V)) :
    (ks.foldl (fun acc k => eraseKey acc k) l).Sublist l := by
  induction ks generalizing l with
  | nil => exact List.Sublist.refl l
  | cons k ks ih =>
      simp only [List.foldl_cons]
      exact (ih (eraseKey l k)).trans (List.filter_sublist l)

theorem getLast?_cons_of_ne_nil {α : Type} (a : α) {l : List α} (h : l ≠ []) :
    (a :: l).getLast? = l.getLast? := by
  cases l with
  | nil => exact absurd rfl h
  | cons b t => exact List.getLast?_cons_cons

theorem le_of_mem_getLast {l : List (K × V)} (hs : keysSorted l) {p q : K × V}
    (hp : p ∈ l) (hq : l.getLast? = some q) : p.1 ≤ q.1 := by
  have hdecomp : l.dropLast ++ [q] = l := List.dropLast_append_getLast? q hq
  rw [← hdecomp] at hp hs
  rw [keysSorted, List.pairwise_append] at hs
  rcases List.mem_append.1 hp with hp | hp
  · exact le_of_lt (hs.2.2 p hp q (List.mem_singleton_self q))
  · rw [List.mem_singleton.1 hp]

theorem eq_getLast_of_key_eq {l : List (K × V)} (hs : keysSorted l) {p q : K × V}
    (hp : p ∈ l) (hq : l.getLast? = some q) (hkey : p.1 = q.1) : p = q := by
  have hdecomp : l.dropLast ++ [q] = l := List.dropLast_append_getLast? q hq
  rw [← hdecomp] at hp hs
  rw [keysSorted, List.pairwise_append] at hs
  rcases List.mem_append.1 hp with hp | hp
  · exact absurd hkey (ne_of_lt (hs.2.2 p hp q (List.mem_singleton_self q)))
  · exact List.mem_singleton.1 hp

theorem getLast?_insertOrAssign_of_le {l : List (K × V)} {k : K} {v : V}
    (hs : keysSorted l) (hle : ∀ p ∈ l, p.1 ≤ k) :
    (insertOrAssign l k v).getLast? = some (k, v) := by
  induction l with
  | nil => rfl
  | cons a t ih =>
      obtain ⟨k1, v1⟩ := a
      rw [keysSorted, List.pairwise_cons] at hs
      obtain ⟨h1, ht⟩ := hs
      have hk1 : k1 ≤ k := hle (k1, v1) (List.mem_cons_self _ _)
      simp only [insertOrAssign]
      rw [if_neg (not_lt.2 hk1)]
      split
      · rw [getLast?_cons_of_ne_nil _ (insertOrAssign_ne_nil t k v)]
        exact ih ht (fun p hp => hle p (List.mem_cons_of_mem _ hp))
      · rename_i hlt
        have hk : k = k1 := le_antisymm (not_lt.1 hlt) hk1
        cases t with
        | nil => rfl
        | cons q t2 =>
            exact absurd (hle q (List.mem_cons_of_mem _ (List.mem_cons_self _ _)))
              (not_le.2 (hk ▸ h1 q (List.mem_cons_self _ _)))

theorem head?_dropWhile_false {α : Type} (q : α → Bool) (l : List α) {p : α}
    (h : (l.dropWhile q).head? = some p) : q p = false := by
  induction l with
  | nil => simp at h
  | cons a t ih =>
      rw [List.dropWhile_cons] at h
      split at h
      · exact ih h
      · rename_i hq
        simp at h
        rw [← h]
        exact Bool.of_not_eq_true hq

theorem mem_dropWhile_key_ge {l : List (K × V)} (hs : keysSorted l) (b : K) :
    ∀ p ∈ l.dropWhile (fun p => decide (p.1 < b)), ¬ p.1 < b := by
  induction l with
  | nil => simp
  | cons a t ih =>
      rw [keysSorted, List.pairwise_cons] at hs
      obtain ⟨h1, ht⟩ := hs
      intro p hp
      rw [List.dropWhile_cons] at hp
      split at hp
      · exact ih ht p hp
      · rename_i ha
        have ha : ¬ a.1 < b := by simpa using ha
        rcases List.mem_cons.1 hp with rfl | hp
        · exact ha
        · exact fun hlt => ha (lt_trans (h1 p hp) hlt)

theorem mem_dropWhile_key_gt {l : List (K × V)} (hs : keysSorted l) (e : K) :
    ∀ p ∈ l.dropWhile (fun p => decide (p.1 ≤ e)), e < p.1 := by
  induction l with
  | nil => simp
  | cons a t ih =>
      rw [keysSorted, List.pairwise_cons] at hs
      obtain ⟨h1, ht⟩ := hs
      intro p hp
      rw [List.dropWhile_cons] at hp
      split at hp
      · exact ih ht p hp
      · rename_i ha
        have ha : ¬ a.1 ≤ e := by simpa using ha
        rcases List.mem_cons.1 hp with rfl | hp
        · exact not_le.1 ha
        · exact lt_trans (not_le.1 ha) (h1 p hp)

/-! ### Claim C5: degenerate range is an atomic no-op -/

/-- Claim C5: for every map state and every call `assign(keyBegin, keyEnd, value)`
with `¬(keyBegin < keyEnd)`, the call performs no mutation: the map object is
returned unchanged, hence `valueAt` is unchanged at every key and `size()` is
unchanged; the call is silently ignored (no error value is produced). -/
theorem assign_degenerate_noop (m : interval_map K V) (b e : K) (v : V)
    (h : ¬ b < e) :
    m.assign b e v = m ∧
    (∀ k, (m.assign b e v).valueAt k = m.valueAt k) ∧
    (m.assign b e v).size = m.size := by
  have heq : m.assign b e v = m := by
    rw [interval_map.assign, if_pos h]
  exact ⟨heq, fun k => by rw [heq], by rw [heq]⟩

/-- Witness for C5 at the concrete call `assign(5, 5, 'B')` on a fresh map. -/
theorem assign_degenerate_noop_witness :
    ¬ (5 : Int) < 5 ∧
      ((interval_map.ctor 'A' : interval_map Int Char).assign 5 5 'B').valueAt 7 =
        (interval_map.ctor 'A' : interval_map Int Char).valueAt 7 :=
  ⟨by decide, (assign_degenerate_noop _ 5 5 'B' (by decide)).2.1 7⟩

/-! ### Claim C8: trivial-map phase -/

/-- Claim C8: for every call `assign(keyBegin, keyEnd, value)` with
`keyBegin < keyEnd` on a map whose boundary store is empty: if the value
equals `m_valBegin` the map is unchanged, otherwise the store afterwards is
exactly `[(keyBegin, value), (keyEnd, m_valBegin)]` and `size() = 2`. -/
theorem assign_empty_map (m : interval_map K V) (b e : K) (v : V)
    (hbe : b < e) (hm : m.m_map = []) :
    (v = m.m_valBegin → m.assign b e v = m) ∧
    (v ≠ m.m_valBegin →
      (m.assign b e v).m_map = [(b, v), (e, m.m_valBegin)] ∧
      (m.assign b e v).size = 2) := by
  constructor
  · intro hv
    rw [interval_map.assign, if_neg (not_not_intro hbe), if_pos hm,
      if_neg (not_not_intro hv)]
  · intro hv
    have hmap : (m.assign b e v).m_map = [(b, v), (e, m.m_valBegin)] := by
      rw [interval_map.assign, if_neg (not_not_intro hbe), if_pos hm, if_pos hv]
      simp only [insertOrAssign]
      rw [if_pos hbe]
    exact ⟨hmap, by rw [interval_map.size, hmap]; rfl⟩

/-- Witness for C8 at the concrete call `assign(1, 3, 'B')` on a fresh map. -/
theorem assign_empty_map_witness :
    (1 : Int) < 3 ∧
      ((interval_map.ctor 'A' : interval_map Int Char).assign 1 3 'B').m_map
        = [((1 : Int), 'B'), (3, 'A')] :=
  ⟨by decide, ((assign_empty_map _ 1 3 'B' (by decide) rfl).2 (by decide)).1⟩

/-! ### Claim C1: pointwise correctness of `assign` (violated by the code) -/

/-- Claim C1 is violated by the code: starting from the reachable canonical
state produced by `assign(10, 20, 'B')` on a fresh map with default 'A'
(boundary store `[(10, 'B'), (20, 'A')]`), the call `assign(0, 5, 'B')`
changes the value at key 7 from 'A' to 'B' although 7 lies outside `[0, 5)`.
The forward-merge step (source lines 112-117) erases the boundary at 10 just
because its value equals the assigned value, even though the keys in `[5, 10)`
held the default value before the call. -/
theorem assign_changes_key_outside_range :
    Reachable ((interval_map.ctor 'A' : interval_map Int Char).assign 10 20 'B') ∧
    ((interval_map.ctor 'A' : interval_map Int Char).assign 10 20 'B').is_canonical = true ∧
    ((interval_map.ctor 'A' : interval_map Int Char).assign 10 20 'B').valueAt 7 = 'A' ∧
    (((interval_map.ctor 'A' : interval_map Int Char).assign 10 20 'B').assign 0 5 'B').valueAt 7 = 'B' ∧
    ¬ ((0 : Int) ≤ 7 ∧ (7 : Int) < 5) :=
  ⟨Reachable.step _ 10 20 'B' (Reachable.ctor 'A'), by decide, by decide, by decide, by decide⟩

/-! ### Claim C3: no internal failure (violated by the code) -/

/-- Claim C3 is violated by the code: on the reachable state produced by
`assign(1, 3, 'B')` on a fresh 'A' map (boundary store `[(1, 'B'), (3, 'A')]`),
the call `assign(10, 20, 'C')` reaches the forward-merge step with
`std::next(insert) == m_map.end()`; the source then reads
`what_after->second` (line 114) without any bounds check, i.e. it dereferences
the past-the-end iterator. -/
theorem assign_forward_merge_out_of_bounds :
    Reachable ((interval_map.ctor 'A' : interval_map Int Char).assign 1 3 'B') ∧
    ((interval_map.ctor 'A' : interval_map Int Char).assign 1 3 'B').assignAccessSafe 10 20 'C'
      = false :=
  ⟨Reachable.step _ 1 3 'B' (Reachable.ctor 'A'), by decide⟩

/-! ### Claim C4: lookup contract -/

theorem takeWhile_le_getLast (key : K) {l : List (K × V)} (hs : keysSorted l)
    {p : K × V} (hp : p ∈ l) (hple : p.1 ≤ key)
    (hmax : ∀ q ∈ l, q.1 ≤ key → q.1 ≤ p.1) :
    (l.takeWhile (fun q => decide (q.1 ≤ key))).getLast? = some p := by
  induction l with
  | nil => simp at hp
  | cons a t ih =>
      rw [keysSorted, List.pairwise_cons] at hs
      obtain ⟨h1, ht⟩ := hs
      rcases List.mem_cons.1 hp with rfl | hp
      · have htw : t.takeWhile (fun q => decide (q.1 ≤ key)) = [] := by
          cases t with
          | nil => rfl
          | cons q t2 =>
              rw [List.takeWhile_cons]
              have hq : ¬ q.1 ≤ key := fun hqle =>
                absurd (hmax q (List.mem_cons_of_mem _ (List.mem_cons_self _ _)) hqle)
                  (not_le.2 (h1 q (List.mem_cons_self _ _)))
              rw [if_neg (by simpa using hq)]
        rw [List.takeWhile_cons, if_pos (decide_eq_true hple), htw]
        rfl
      · have ha : p.fst ≤ key := hple
        have hakey : p.1 ≤ key := hple
        have halt : a.1 < p.1 := h1 p hp
        have htw := ih ht hp (fun q hq hqle => hmax q (List.mem_cons_of_mem _ hq) hqle)
        rw [List.takeWhile_cons,
          if_pos (decide_eq_true (le_of_lt (lt_of_lt_of_le halt hakey))),
          getLast?_cons_of_ne_nil]
        · exact htw
        · intro hnil
          rw [hnil] at htw
          simp at htw

/-- Claim C4: for every (well-formed, i.e. key-sorted) map state and every key,
`valueAt` returns the value of the greatest stored boundary key that is less
than or equal to the key, and returns `m_valBegin` when no stored key is less
than or equal to the key (in particular on the empty map).  The operation is a
pure function of the state, so it never mutates the map. -/
theorem valueAt_contract (m : interval_map K V) (key : K)
    (hs : keysSorted m.m_map) :
    ((∀ q ∈ m.m_map, key < q.1) → m.valueAt key = m.m_valBegin) ∧
    (∀ p ∈ m.m_map, p.1 ≤ key → (∀ q ∈ m.m_map, q.1 ≤ key → q.1 ≤ p.1) →
      m.valueAt key = p.2) := by
  constructor
  · intro hall
    rw [interval_map.valueAt]
    have htw : m.m_map.takeWhile (fun q => decide (q.1 ≤ key)) = [] := by
      cases hmm : m.m_map with
      | nil => rfl
      | cons a t =>
          rw [List.takeWhile_cons]
          have ha : ¬ a.1 ≤ key :=
            not_le.2 (hall a (by rw [hmm]; exact List.mem_cons_self _ _))
          rw [if_neg (by simpa using ha)]
    rw [htw]
    rfl
  · intro p hp hple hmax
    rw [interval_map.valueAt, takeWhile_le_getLast key hs hp hple hmax]

/-- Witness for C4 on the concrete state `[(1, 'B'), (3, 'A')]` at key 2: the
greatest stored key at most 2 is 1, so the lookup returns 'B'. -/
theorem valueAt_contract_witness :
    keysSorted (⟨'A', [((1 : Int), 'B'), (3, 'A')]⟩ : interval_map Int Char).m_map ∧
    (⟨'A', [((1 : Int), 'B'), (3, 'A')]⟩ : interval_map Int Char).valueAt 2 = 'B' :=
  ⟨by decide,
    (valueAt_contract _ 2 (by decide)).2 ((1 : Int), 'B') (by decide) (by decide)
      (by decide)⟩

/-! ### Claim C6: collapse to empty -/

theorem mem_eraseKey_iff {l : List (K × V)} {k : K} {p : K × V} :
    p ∈ eraseKey l k ↔ p ∈ l ∧ p.1 ≠ k := by
  rw [eraseKey, List.mem_filter]
  simp

theorem mem_foldl_eraseKey {ks : List K} {l : List (K × V)} {p : K × V} :
    p ∈ ks.foldl (fun acc k => eraseKey acc k) l ↔ p ∈ l ∧ p.1 ∉ ks := by
  induction ks generalizing l with
  | nil => simp
  | cons k ks ih =>
      simp only [List.foldl_cons]
      rw [ih, mem_eraseKey_iff]
      simp only [List.mem_cons]
      constructor
      · rintro ⟨⟨hp, hne⟩, hnot⟩
        exact ⟨hp, fun h => h.elim (fun h => hne h) hnot⟩
      · rintro ⟨hp, hnot⟩
        exact ⟨⟨hp, fun h => hnot (Or.inl h)⟩, fun h => hnot (Or.inr h)⟩

theorem head_le_of_mem {l : List (K × V)} (hs : keysSorted l) {h p : K × V}
    (hh : l.head? = some h) (hp : p ∈ l) : h.1 ≤ p.1 := by
  cases l with
  | nil => simp at hh
  | cons a t =>
      rw [keysSorted, List.pairwise_cons] at hs
      have ha : a = h := by simpa using hh
      subst ha
      rcases List.mem_cons.1 hp with rfl | hp
      · exact le_refl _
      · exact le_of_lt (hs.1 p hp)

/-- The per-entry body of the scanning loop: the `step` value computed by
`clearLoop` for the entry `(k, w)` whose successor list is `rest`. -/
def clearStep (b e : K) (v : V) (k : K) (w : V) (rest : List (K × V)) :
    Option (K × V) × List K :=
  if ¬ b < k ∧ ¬ k < b ∧ w = v then
    match rest with
    | (k2, w2) :: _ => if w2 = v then (none, [k2]) else (none, [])
    | [] => (none, [])
  else if ¬ e < k ∧ w = v then (none, [k])
  else if ¬ k < b ∧ k < e then
    match rest with
    | (k2, _) :: _ => if e < k2 then (some (e, w), [k]) else (none, [k])
    | [] => (none, [k])
  else (none, [])

theorem clearLoop_cons (b e : K) (v : V) (k : K) (w : V) (rest : List (K × V)) :
    clearLoop b e v ((k, w) :: rest)
      = if k < e then
          ((clearLoop b e v rest).1.orElse (fun _ => (clearStep b e v k w rest).1),
           (clearStep b e v k w rest).2 ++ (clearLoop b e v rest).2)
        else clearStep b e v k w rest := rfl

theorem orElse_eq_of_none {A : Type} {o : Option A} (h : o = none)
    (f : Unit → Option A) : o.orElse f = f () := by
  rw [h]
  rfl

theorem clearStep_span {b e : K} {v : V} {k : K} {w : V} {rest : List (K × V)}
    (hke : k < e) (hkb : ¬ k < b) (hnext : ∀ p ∈ rest, k < p.1)
    (hreste : ∀ p ∈ rest, p.1 < e) :
    (clearStep b e v k w rest).1 = none ∧
    (¬ (k = b ∧ w = v) → k ∈ (clearStep b e v k w rest).2) ∧
    (∀ x ∈ (clearStep b e v k w rest).2,
      b < x ∨ (x = k ∧ ¬ (k = b ∧ w = v))) := by
  by_cases h1 : ¬ b < k ∧ ¬ k < b ∧ w = v
  · have hkeq : k = b := le_antisymm (not_lt.1 h1.1) (not_lt.1 h1.2.1)
    cases rest with
    | nil =>
        have hred : clearStep b e v k w ([] : List (K × V)) = (none, []) := by
          rw [clearStep.eq_def, if_pos h1]
        rw [hred]
        exact ⟨rfl, fun hc => absurd ⟨hkeq, h1.2.2⟩ hc, by simp⟩
    | cons q rest2 =>
        obtain ⟨k2, w2⟩ := q
        have hk2 : k < k2 := hnext (k2, w2) (List.mem_cons_self _ _)
        by_cases h2 : w2 = v
        · have hred : clearStep b e v k w ((k2, w2) :: rest2) = (none, [k2]) := by
            rw [clearStep.eq_def, if_pos h1]
            show (if w2 = v then ((none : Option (K × V)), [k2])
              else ((none : Option (K × V)), [])) = ((none : Option (K × V)), [k2])
            rw [if_pos h2]
          rw [hred]
          refine ⟨rfl, fun hc => absurd ⟨hkeq, h1.2.2⟩ hc, ?_⟩
          intro x hx
          rw [List.mem_singleton.1 hx]
          exact Or.inl (hkeq ▸ hk2)
        · have hred : clearStep b e v k w ((k2, w2) :: rest2) = (none, []) := by
            rw [clearStep.eq_def, if_pos h1]
            show (if w2 = v then ((none : Option (K × V)), [k2])
              else ((none : Option (K × V)), [])) = ((none : Option (K × V)), [])
            rw [if_neg h2]
          rw [hred]
          exact ⟨rfl, fun hc => absurd ⟨hkeq, h1.2.2⟩ hc, by simp⟩
  · by_cases h2 : ¬ e < k ∧ w = v
    · have hred : clearStep b e v k w rest = (none, [k]) := by
        rw [clearStep.eq_def, if_neg h1, if_pos h2]
      rw [hred]
      refine ⟨rfl, fun _ => List.mem_singleton_self _, ?_⟩
      intro x hx
      rw [List.mem_singleton.1 hx]
      refine Or.inr ⟨rfl, fun hcon => h1 ⟨?_, ?_, hcon.2⟩⟩
      · rw [hcon.1]; exact lt_irrefl b
      · rw [hcon.1]; exact lt_irrefl b
    · have h3 : ¬ k < b ∧ k < e := ⟨hkb, hke⟩
      have hwv : w ≠ v := fun hcon => h2 ⟨not_lt.2 (le_of_lt hke), hcon⟩
      have hred : clearStep b e v k w rest = (none, [k]) := by
        cases rest with
        | nil => rw [clearStep.eq_def, if_neg h1, if_neg h2, if_pos h3]
        | cons q rest2 =>
            obtain ⟨k2, w2⟩ := q
            have hk2e : k2 < e := hreste (k2, w2) (List.mem_cons_self _ _)
            rw [clearStep.eq_def, if_neg h1, if_neg h2, if_pos h3]
            show (if e < k2 then ((some (e, w) : Option (K × V)), [k])
              else ((none : Option (K × V)), [k])) = ((none : Option (K × V)), [k])
            rw [if_neg (not_lt.2 (le_of_lt hk2e))]
      rw [hred]
      refine ⟨rfl, fun _ => List.mem_singleton_self _, ?_⟩
      intro x hx
      rw [List.mem_singleton.1 hx]
      exact Or.inr ⟨rfl, fun hcon => hwv hcon.2⟩

theorem clearLoop_span {l : List (K × V)} {b e : K} {v : V}
    (hs : keysSorted l) (hb : ∀ p ∈ l, ¬ p.1 < b) (he : ∀ p ∈ l, p.1 < e) :
    (clearLoop b e v l).1 = none ∧
    (∀ p ∈ l, ¬ (p.1 = b ∧ p.2 = v) → p.1 ∈ (clearLoop b e v l).2) ∧
    (∀ k ∈ (clearLoop b e v l).2,
      b < k ∨ ∃ p ∈ l, p.1 = k ∧ ¬ (p.1 = b ∧ p.2 = v)) := by
  induction l with
  | nil => exact ⟨rfl, by simp, by simp [clearLoop]⟩
  | cons a rest ih =>
      obtain ⟨k, w⟩ := a
      rw [keysSorted, List.pairwise_cons] at hs
      obtain ⟨h1, ht⟩ := hs
      have hke : k < e := he (k, w) (List.mem_cons_self _ _)
      have hkb : ¬ k < b := hb (k, w) (List.mem_cons_self _ _)
      obtain ⟨ihres, ihcov, ihsrc⟩ := ih ht
        (fun p hp => hb p (List.mem_cons_of_mem _ hp))
        (fun p hp => he p (List.mem_cons_of_mem _ hp))
      obtain ⟨stres, stself, stsrc⟩ := clearStep_span (v := v) (w := w) hke hkb
        (fun p hp => h1 p hp)
        (fun p hp => he p (List.mem_cons_of_mem _ hp))
      rw [clearLoop_cons, if_pos hke, orElse_eq_of_none ihres]
      refine ⟨stres, ?_, ?_⟩
      · intro p hp hpcond
        rcases List.mem_cons.1 hp with rfl | hp
        · exact List.mem_append.2 (Or.inl (stself hpcond))
        · exact List.mem_append.2 (Or.inr (ihcov p hp hpcond))
      · intro x hx
        rcases List.mem_append.1 hx with hx | hx
        · rcases stsrc x hx with h | ⟨hxk, hcon⟩
          · exact Or.inl h
          · exact Or.inr ⟨(k, w), List.mem_cons_self _ _, hxk.symm, by simpa using hcon⟩
        · rcases ihsrc x hx with h | ⟨p, hp, hk, hcon⟩
          · exact Or.inl h
          · exact Or.inr ⟨p, List.mem_cons_of_mem _ hp, hk, hcon⟩

/-- The `last_key` computed at source line 49: the larger of the last stored
key and `keyEnd`. -/
def lastKeyOf (m : interval_map K V) (e : K) : K :=
  match m.m_map.getLast? with
  | some p => if p.1 < e then e else p.1
  | none => e

theorem tailPhase_nil (valB : V) : tailPhase valB ([] : List (K × V)) = [] := rfl

theorem clearPhase_unfold (l : List (K × V)) (b e : K) (v : V) :
    clearPhase l b e v =
      (clearLoop b e v (l.dropWhile (fun p => decide (p.1 < b)))).2.foldl
        (fun acc k => eraseKey acc k)
        (match (clearLoop b e v (l.dropWhile (fun p => decide (p.1 < b)))).1 with
          | some r => insertOrAssign l r.1 r.2
          | none => l) := rfl

/-- Unfolding of `assign` in its main (non-degenerate, non-empty) branch. -/
theorem assign_eq_main (m : interval_map K V) (b e : K) (v : V)
    (hbe : b < e) (hne : m.m_map ≠ []) :
    m.assign b e v =
      (if tailPhase m.m_valBegin (frontStrip m.m_valBegin
            (insertPhase (clearPhase m.m_map b e v) b v)) = []
       then (⟨m.m_valBegin, tailPhase m.m_valBegin (frontStrip m.m_valBegin
            (insertPhase (clearPhase m.m_map b e v) b v))⟩ : interval_map K V)
       else ⟨m.m_valBegin,
         finalPhase m.m_valBegin (lastKeyOf m e)
           (tailPhase m.m_valBegin (frontStrip m.m_valBegin
             (insertPhase (clearPhase m.m_map b e v) b v)))⟩) := by
  rw [interval_map.assign, if_neg (not_not_intro hbe), if_neg hne]
  rfl

theorem insertPhase_singleton (b : K) (v : V) {l : List (K × V)}
    (hl : l = [] ∨ l = [(b, v)]) : insertPhase l b v = [(b, v)] := by
  have hioa : insertOrAssign l b v = [(b, v)] := by
    rcases hl with rfl | rfl
    · rfl
    · show (if b < b then _ else if b < b then _ else _) = _
      rw [if_neg (lt_irrefl b), if_neg (lt_irrefl b)]
  have hdw : ([(b, v)] : List (K × V)).dropWhile (fun p => decide (p.1 ≤ b)) = [] := by
    rw [List.dropWhile_cons, if_pos (by simp)]
    rfl
  have htw : ([(b, v)] : List (K × V)).takeWhile (fun p => decide (p.1 < b)) = [] := by
    rw [List.takeWhile_cons, if_neg (by simp)]
  rw [insertPhase, hioa, hdw]
  simp only [List.head?_nil]
  rw [htw]
  rfl

/-- Claim C6: assigning `m_valBegin` over a range `[keyBegin, keyEnd)` with
`keyBegin < keyEnd` that covers the whole span of stored boundaries (the first
stored key is not below `keyBegin` and the last stored key is below `keyEnd`)
empties the boundary store: `size() = 0` afterwards. -/
theorem assign_collapse_to_empty (m : interval_map K V) (b e : K)
    (hs : keysSorted m.m_map) (hne : m.m_map ≠ []) (hbe : b < e)
    (hfirst : ∀ p, m.m_map.head? = some p → ¬ p.1 < b)
    (hlast : ∀ p, m.m_map.getLast? = some p → p.1 < e) :
    (m.assign b e m.m_valBegin).size = 0 := by
  obtain ⟨h0, l0, hml⟩ : ∃ h0 l0, m.m_map = h0 :: l0 := by
    cases hmm : m.m_map with
    | nil => exact absurd hmm hne
    | cons h0 l0 => exact ⟨h0, l0, rfl⟩
  have hb : ∀ p ∈ m.m_map, ¬ p.1 < b := by
    intro p hp hplt
    have hh : m.m_map.head? = some h0 := by rw [hml]; rfl
    exact hfirst h0 hh (lt_of_le_of_lt (head_le_of_mem hs hh hp) hplt)
  have he : ∀ p ∈ m.m_map, p.1 < e := by
    intro p hp
    obtain ⟨q, hq⟩ : ∃ q, m.m_map.getLast? = some q := by
      rw [hml]
      exact ⟨(h0 :: l0).getLast (by simp), List.getLast?_eq_getLast _ _⟩
    exact lt_of_le_of_lt (le_of_mem_getLast hs hp hq) (hlast q hq)
  have hdrop : m.m_map.dropWhile (fun p => decide (p.1 < b)) = m.m_map := by
    rw [hml, List.dropWhile_cons,
      if_neg (by simpa using hb h0 (hml ▸ List.mem_cons_self _ _))]
  obtain ⟨hres, hcov, hsrc⟩ := clearLoop_span hs hb he (v := m.m_valBegin)
  have hcp : clearPhase m.m_map b e m.m_valBegin
      = (clearLoop b e m.m_valBegin m.m_map).2.foldl
          (fun acc k => eraseKey acc k) m.m_map := by
    rw [clearPhase_unfold, hdrop, hres]
  have herased : ∀ p ∈ clearPhase m.m_map b e m.m_valBegin,
      p.1 = b ∧ p.2 = m.m_valBegin := by
    intro p hp
    rw [hcp, mem_foldl_eraseKey] at hp
    by_contra hcon
    exact hp.2 (hcov p hp.1 hcon)
  have hsub : (clearPhase m.m_map b e m.m_valBegin).Sublist m.m_map := by
    rw [hcp]
    exact foldl_eraseKey_sublist _ _
  have hsorted2 : keysSorted (clearPhase m.m_map b e m.m_valBegin) :=
    List.Pairwise.sublist hsub hs
  have hshape : clearPhase m.m_map b e m.m_valBegin = [] ∨
      clearPhase m.m_map b e m.m_valBegin = [(b, m.m_valBegin)] := by
    cases hcp : clearPhase m.m_map b e m.m_valBegin with
    | nil => exact Or.inl rfl
    | cons q t =>
        have hq : q.1 = b ∧ q.2 = m.m_valBegin :=
          herased q (hcp ▸ List.mem_cons_self _ _)
        have ht : t = [] := by
          cases ht : t with
          | nil => rfl
          | cons r t2 =>
              have hr : r.1 = b ∧ r.2 = m.m_valBegin := by
                refine herased r ?_
                rw [hcp, ht]
                exact List.mem_cons_of_mem _ (List.mem_cons_self _ _)
              have : q.1 < r.1 := by
                have := hcp ▸ hsorted2
                rw [keysSorted, List.pairwise_cons] at this
                exact this.1 r (ht ▸ List.mem_cons_self _ _)
              rw [hq.1, hr.1] at this
              exact absurd this (lt_irrefl b)
        subst ht
        right
        obtain ⟨qa, qb⟩ := q
        simp only at hq
        rw [hq.1, hq.2]
  have hl2 : insertPhase (clearPhase m.m_map b e m.m_valBegin) b m.m_valBegin
      = [(b, m.m_valBegin)] := insertPhase_singleton b m.m_valBegin hshape
  have hl3 : frontStrip m.m_valBegin ([(b, m.m_valBegin)] : List (K × V)) = [] := by
    rw [frontStrip, List.dropWhile_cons, if_pos (by simp)]
    rfl
  rw [interval_map.size, assign_eq_main m b e m.m_valBegin hbe hne, hl2, hl3]
  rw [tailPhase_nil, if_pos rfl]
  rfl

/-- Witness for C6: assigning the default 'A' over `[0, 5)` on the state
`[(1, 'B'), (3, 'A')]` (whole span covered) empties the store. -/
theorem assign_collapse_to_empty_witness :
    keysSorted (⟨'A', [((1 : Int), 'B'), (3, 'A')]⟩ : interval_map Int Char).m_map ∧
    ((⟨'A', [((1 : Int), 'B'), (3, 'A')]⟩ : interval_map Int Char).assign 0 5 'A').size = 0 :=
  ⟨by decide,
    assign_collapse_to_empty _ 0 5 (by decide) (by decide) (by decide)
      (by decide) (by decide)⟩

/-! ### The reachable-state invariant: sorted keys, trailing default entry,
leading non-default entry -/

/-- Trailing sentinel: a non-empty store ends in an entry holding
`m_valBegin`. -/
def lastIsDefault (m : interval_map K V) : Prop :=
  ∀ p, m.m_map.getLast? = some p → p.2 = m.m_valBegin

/-- First invariant of canonical form: a non-empty store starts with an entry
different from `m_valBegin`. -/
def headNotDefault (m : interval_map K V) : Prop :=
  ∀ p, m.m_map.head? = some p → p.2 ≠ m.m_valBegin

/-- The basic state invariant maintained by `assign`. -/
def Inv (m : interval_map K V) : Prop :=
  keysSorted m.m_map ∧ lastIsDefault m ∧ headNotDefault m

theorem clearStep_fst_cases (b e : K) (v : V) (k : K) (w : V)
    (rest : List (K × V)) :
    (clearStep b e v k w rest).1 = none ∨
    ((clearStep b e v k w rest).1 = some (e, w) ∧ ∃ q ∈ rest, e < q.1) := by
  by_cases h1 : ¬ b < k ∧ ¬ k < b ∧ w = v
  · left
    cases rest with
    | nil =>
        have h0 : clearStep b e v k w ([] : List (K × V)) = (none, []) := by
          rw [clearStep.eq_def, if_pos h1]
        rw [h0]
    | cons q rest2 =>
        obtain ⟨k2, w2⟩ := q
        have h0 : clearStep b e v k w ((k2, w2) :: rest2)
            = if w2 = v then (none, [k2]) else (none, []) := by
          rw [clearStep.eq_def, if_pos h1]
        rw [h0]
        by_cases h2 : w2 = v
        · rw [if_pos h2]
        · rw [if_neg h2]
  · by_cases h2 : ¬ e < k ∧ w = v
    · left
      have h0 : clearStep b e v k w rest = (none, [k]) := by
        rw [clearStep.eq_def, if_neg h1, if_pos h2]
      rw [h0]
    · by_cases h3 : ¬ k < b ∧ k < e
      · cases rest with
        | nil =>
            left
            have h0 : clearStep b e v k w ([] : List (K × V)) = (none, [k]) := by
              rw [clearStep.eq_def, if_neg h1, if_neg h2, if_pos h3]
            rw [h0]
        | cons q rest2 =>
            obtain ⟨k2, w2⟩ := q
            have h0 : clearStep b e v k w ((k2, w2) :: rest2)
                = if e < k2 then (some (e, w), [k]) else (none, [k]) := by
              rw [clearStep.eq_def, if_neg h1, if_neg h2, if_pos h3]
            rw [h0]
            by_cases h4 : e < k2
            · right
              rw [if_pos h4]
              exact ⟨rfl, (k2, w2), List.mem_cons_self _ _, h4⟩
            · left
              rw [if_neg h4]
      · left
        have h0 : clearStep b e v k w rest = (none, []) := by
          rw [clearStep.eq_def, if_neg h1, if_neg h2, if_neg h3]
        rw [h0]

theorem clearLoop_resize {s : List (K × V)} {b e : K} {v : V} {r : K × V}
    (h : (clearLoop b e v s).1 = some r) :
    r.1 = e ∧ ∃ q ∈ s, e < q.1 := by
  induction s with
  | nil => exact absurd h (by simp [clearLoop])
  | cons a rest ih =>
      obtain ⟨k, w⟩ := a
      rw [clearLoop_cons] at h
      by_cases hke : k < e
      · rw [if_pos hke] at h
        cases hrec : (clearLoop b e v rest).1 with
        | some r2 =>
            have hr2 : r2 = r := by
              rw [show ((clearLoop b e v rest).1.orElse
                  (fun _ => (clearStep b e v k w rest).1),
                  (clearStep b e v k w rest).2 ++ (clearLoop b e v rest).2).1
                = (clearLoop b e v rest).1.orElse
                  (fun _ => (clearStep b e v k w rest).1) from rfl, hrec] at h
              simpa [Option.orElse] using h
            obtain ⟨he1, q, hq, hq2⟩ := ih (by rw [hrec, hr2])
            exact ⟨he1, q, List.mem_cons_of_mem _ hq, hq2⟩
        | none =>
            rw [show ((clearLoop b e v rest).1.orElse
                (fun _ => (clearStep b e v k w rest).1),
                (clearStep b e v k w rest).2 ++ (clearLoop b e v rest).2).1
              = (clearLoop b e v rest).1.orElse
                (fun _ => (clearStep b e v k w rest).1) from rfl,
              orElse_eq_of_none hrec] at h
            have h2 : (clearStep b e v k w rest).1 = some r := h
            rcases clearStep_fst_cases b e v k w rest with hc | ⟨hc, q, hq, hq2⟩
            · rw [hc] at h2
              exact absurd h2 (by simp)
            · rw [hc] at h2
              have hr : (e, w) = r := by simpa using h2
              exact ⟨by rw [← hr], q, List.mem_cons_of_mem _ hq, hq2⟩
      · rw [if_neg hke] at h
        rcases clearStep_fst_cases b e v k w rest with hc | ⟨hc, q, hq, hq2⟩
        · rw [hc] at h
          exact absurd h (by simp)
        · rw [hc] at h
          have hr : (e, w) = r := by simpa using h
          exact ⟨by rw [← hr], q, List.mem_cons_of_mem _ hq, hq2⟩

theorem keysSorted_clearPhase {l : List (K × V)} (b e : K) (v : V)
    (hs : keysSorted l) : keysSorted (clearPhase l b e v) := by
  rw [clearPhase_unfold]
  refine List.Pairwise.sublist (foldl_eraseKey_sublist _ _) ?_
  cases hcl : (clearLoop b e v (l.dropWhile (fun p => decide (p.1 < b)))).1 with
  | none => exact hs
  | some r => exact keysSorted_insertOrAssign hs

theorem mem_clearPhase {l : List (K × V)} {b e : K} {v : V} {p : K × V}
    (hp : p ∈ clearPhase l b e v) :
    p ∈ l ∨ (p.1 = e ∧ ∃ q ∈ l, e < q.1) := by
  rw [clearPhase_unfold] at hp
  have hp2 := (foldl_eraseKey_sublist _ _).subset hp
  cases hcl : (clearLoop b e v (l.dropWhile (fun p => decide (p.1 < b)))).1 with
  | none =>
      rw [hcl] at hp2
      exact Or.inl hp2
  | some r =>
      rw [hcl] at hp2
      rcases mem_insertOrAssign hp2 with h | rfl
      · exact Or.inl h
      · obtain ⟨hre, q, hq, hqe⟩ := clearLoop_resize hcl
        exact Or.inr ⟨hre, q, (List.dropWhile_suffix _).sublist.subset hq, hqe⟩

theorem erase_branch_sublist (l2 : List (K × V)) (o : Option (K × V))
    (k : K) (v : V) :
    (match o with
      | some q => if q.2 = v then eraseKey l2 k else l2
      | none => l2).Sublist l2 := by
  cases o with
  | none => exact List.Sublist.refl _
  | some q =>
      show (if q.2 = v then eraseKey l2 k else l2).Sublist l2
      by_cases hq : q.2 = v
      · rw [if_pos hq]
        exact List.filter_sublist _
      · rw [if_neg hq]

theorem erase_branch_sublist_own (l1 : List (K × V)) (o : Option (K × V))
    (v : V) :
    (match o with
      | some q => if q.2 = v then eraseKey l1 q.1 else l1
      | none => l1).Sublist l1 := by
  cases o with
  | none => exact List.Sublist.refl _
  | some q =>
      show (if q.2 = v then eraseKey l1 q.1 else l1).Sublist l1
      by_cases hq : q.2 = v
      · rw [if_pos hq]
        exact List.filter_sublist _
      · rw [if_neg hq]

theorem insertPhase_sublist (l : List (K × V)) (b : K) (v : V) :
    (insertPhase l b v).Sublist (insertOrAssign l b v) := by
  rw [insertPhase]
  exact (erase_branch_sublist _ _ b v).trans (erase_branch_sublist_own _ _ v)

theorem keysSorted_insertPhase {l : List (K × V)} (b : K) (v : V)
    (hs : keysSorted l) : keysSorted (insertPhase l b v) :=
  List.Pairwise.sublist (insertPhase_sublist l b v) (keysSorted_insertOrAssign hs)

theorem mem_insertPhase {l : List (K × V)} {b : K} {v : V} {p : K × V}
    (hp : p ∈ insertPhase l b v) : p ∈ l ∨ p = (b, v) :=
  mem_insertOrAssign ((insertPhase_sublist l b v).subset hp)

theorem frontStrip_sublist (valB : V) (l : List (K × V)) :
    (frontStrip valB l).Sublist l :=
  (List.dropWhile_suffix _).sublist

theorem head?_frontStrip {valB : V} {l : List (K × V)} {p : K × V}
    (h : (frontStrip valB l).head? = some p) : p.2 ≠ valB := by
  have h2 : (l.dropWhile (fun p => decide (p.2 = valB))).head? = some p := h
  have := head?_dropWhile_false (fun p => decide (p.2 = valB)) l h2
  simpa using this

theorem tailPhase_cases (valB : V) (l : List (K × V)) :
    tailPhase valB l = l ∨ tailPhase valB l = l.dropLast ∨ tailPhase valB l = [] := by
  cases hg : l.getLast? with
  | none => exact Or.inl (by simp only [tailPhase, hg])
  | some p =>
      by_cases h1 : p.2 = valB
      · by_cases h2 : 1 < l.length
        · cases hgd : l.dropLast.getLast? with
          | none =>
              refine Or.inl ?_
              simp only [tailPhase, hg]
              rw [if_pos h1, if_pos h2]
              simp only [hgd]
          | some q =>
              by_cases h3 : q.2 = valB
              · by_cases h4 : l.length = 2
                · refine Or.inr (Or.inr ?_)
                  simp only [tailPhase, hg]
                  rw [if_pos h1, if_pos h2]
                  simp only [hgd]
                  rw [if_pos h3, if_pos h4]
                · refine Or.inr (Or.inl ?_)
                  simp only [tailPhase, hg]
                  rw [if_pos h1, if_pos h2]
                  simp only [hgd]
                  rw [if_pos h3, if_neg h4]
              · refine Or.inl ?_
                simp only [tailPhase, hg]
                rw [if_pos h1, if_pos h2]
                simp only [hgd]
                rw [if_neg h3]
        · refine Or.inr (Or.inr ?_)
          simp only [tailPhase, hg]
          rw [if_pos h1, if_neg h2]
      · refine Or.inl ?_
        simp only [tailPhase, hg]
        rw [if_neg h1]

theorem tailPhase_sublist (valB : V) (l : List (K × V)) :
    (tailPhase valB l).Sublist l := by
  rcases tailPhase_cases valB l with h | h | h <;> rw [h]
  · exact List.dropLast_sublist l
  · exact List.nil_sublist l

theorem head?_dropLast {l : List (K × V)} {p : K × V}
    (h : l.dropLast.head? = some p) : l.head? = some p := by
  cases l with
  | nil => simp at h
  | cons a t =>
      cases t with
      | nil => simp at h
      | cons c t2 =>
          rw [List.dropLast_cons₂] at h
          simpa using h

theorem head?_tailPhase {valB : V} {l : List (K × V)} {p : K × V}
    (h : (tailPhase valB l).head? = some p) : l.head? = some p := by
  rcases tailPhase_cases valB l with hc | hc | hc <;> rw [hc] at h
  · exact h
  · exact head?_dropLast h
  · simp at h

theorem mem_finalPhase {valB : V} {lastKey : K} {l : List (K × V)} {p : K × V}
    (hp : p ∈ finalPhase valB lastKey l) : p ∈ l ∨ p = (lastKey, valB) := by
  rw [finalPhase.eq_def] at hp
  cases hg : l.getLast? with
  | none => rw [hg] at hp; exact Or.inl hp
  | some q =>
      rw [hg] at hp
      have hp2 : p ∈ (if q.2 = valB then l else insertOrAssign l lastKey valB) := hp
      by_cases hq : q.2 = valB
      · rw [if_pos hq] at hp2
        exact Or.inl hp2
      · rw [if_neg hq] at hp2
        exact mem_insertOrAssign hp2

theorem keysSorted_finalPhase {valB : V} {lastKey : K} {l : List (K × V)}
    (hs : keysSorted l) : keysSorted (finalPhase valB lastKey l) := by
  rw [finalPhase.eq_def]
  cases hg : l.getLast? with
  | none => exact hs
  | some q =>
      show keysSorted (if q.2 = valB then l else insertOrAssign l lastKey valB)
      by_cases hq : q.2 = valB
      · rw [if_pos hq]
        exact hs
      · rw [if_neg hq]
        exact keysSorted_insertOrAssign hs

theorem getLast?_finalPhase {valB : V} {lastKey : K} {l : List (K × V)}
    (hs : keysSorted l) (hne : l ≠ []) (hle : ∀ p ∈ l, p.1 ≤ lastKey) :
    ∀ q, (finalPhase valB lastKey l).getLast? = some q → q.2 = valB := by
  intro q hq
  rw [finalPhase.eq_def] at hq
  cases hg : l.getLast? with
  | none =>
      rw [List.getLast?_eq_none_iff] at hg
      exact absurd hg hne
  | some r =>
      rw [hg] at hq
      have hq2 : (if r.2 = valB then l else insertOrAssign l lastKey valB).getLast?
          = some q := hq
      by_cases hr : r.2 = valB
      · rw [if_pos hr] at hq2
        rw [hg] at hq2
        have : r = q := by simpa using hq2
        rw [← this]
        exact hr
      · rw [if_neg hr, getLast?_insertOrAssign_of_le hs hle] at hq2
        have : (lastKey, valB) = q := by simpa using hq2
        rw [← this]

theorem mem_of_getLast? {α : Type} {l : List α} {q : α} (h : l.getLast? = some q) :
    q ∈ l := by
  have hd := List.dropLast_append_getLast? q h
  rw [← hd]
  exact List.mem_append.2 (Or.inr (List.mem_singleton_self q))

theorem le_lastKeyOf_of_mem {m : interval_map K V} (e : K) {p : K × V}
    (hs : keysSorted m.m_map) (hp : p ∈ m.m_map) : p.1 ≤ lastKeyOf m e := by
  obtain ⟨q, hq⟩ : ∃ q, m.m_map.getLast? = some q := by
    cases hmm : m.m_map with
    | nil => rw [hmm] at hp; simp at hp
    | cons a t =>
        exact ⟨(a :: t).getLast (by simp), List.getLast?_eq_getLast _ _⟩
  have h1 : p.1 ≤ q.1 := le_of_mem_getLast hs hp hq
  simp only [lastKeyOf, hq]
  by_cases h2 : q.1 < e
  · rw [if_pos h2]
    exact le_of_lt (lt_of_le_of_lt h1 h2)
  · rw [if_neg h2]
    exact h1

theorem e_le_lastKeyOf (m : interval_map K V) (e : K) : e ≤ lastKeyOf m e := by
  cases hq : m.m_map.getLast? with
  | none =>
      simp only [lastKeyOf, hq]
      exact le_refl e
  | some q =>
      simp only [lastKeyOf, hq]
      by_cases h2 : q.1 < e
      · rw [if_pos h2]
      · rw [if_neg h2]
        exact not_lt.1 h2

theorem mem_l4_cases {m : interval_map K V} {b e : K} {v : V} {p : K × V}
    (hp : p ∈ tailPhase m.m_valBegin (frontStrip m.m_valBegin
      (insertPhase (clearPhase m.m_map b e v) b v))) :
    p ∈ m.m_map ∨ p.1 = b ∨ (p.1 = e ∧ ∃ q ∈ m.m_map, e < q.1) := by
  have h1 := (tailPhase_sublist _ _).subset hp
  have h2 := (frontStrip_sublist _ _).subset h1
  rcases mem_insertPhase h2 with h3 | rfl
  · rcases mem_clearPhase h3 with h4 | h4
    · exact Or.inl h4
    · exact Or.inr (Or.inr h4)
  · exact Or.inr (Or.inl rfl)

theorem insertOrAssign_cons_of_lt {a : K × V} {t : List (K × V)} {k : K} {v : V}
    (h : a.1 < k) :
    insertOrAssign (a :: t) k v = a :: insertOrAssign t k v := by
  obtain ⟨k1, v1⟩ := a
  show (if k < k1 then _ else if k1 < k then (k1, v1) :: insertOrAssign t k v
    else (k, v) :: t) = _
  rw [if_neg (not_lt.2 (le_of_lt h)), if_pos h]

theorem head?_finalPhase {valB : V} {lastKey : K} {l : List (K × V)} {p : K × V}
    (hs : keysSorted l)
    (hstrict : ∀ q, l.getLast? = some q → q.2 ≠ valB → q.1 < lastKey)
    (hp : (finalPhase valB lastKey l).head? = some p) :
    l.head? = some p := by
  rw [finalPhase.eq_def] at hp
  cases hg : l.getLast? with
  | none =>
      rw [hg] at hp
      exact hp
  | some r =>
      rw [hg] at hp
      have hp2 : (if r.2 = valB then l else insertOrAssign l lastKey valB).head?
          = some p := hp
      by_cases hr : r.2 = valB
      · rw [if_pos hr] at hp2
        exact hp2
      · rw [if_neg hr] at hp2
        cases hl : l with
        | nil =>
            rw [hl] at hg
            simp at hg
        | cons a t =>
            have hmem : a ∈ l := by rw [hl]; exact List.mem_cons_self _ _
            have ha : a.1 ≤ r.1 := le_of_mem_getLast hs hmem hg
            have halt : a.1 < lastKey := lt_of_le_of_lt ha (hstrict r hg hr)
            rw [hl, insertOrAssign_cons_of_lt halt] at hp2
            have hap : a = p := by simpa using hp2
            rw [hap]
            rfl

/-- `assign` preserves the basic invariant: sorted keys, trailing default
entry, leading non-default entry. -/
theorem inv_assign {m : interval_map K V} (b e : K) (v : V) (hm : Inv m) :
    Inv (m.assign b e v) := by
  obtain ⟨hs, hT, hF⟩ := hm
  by_cases hbe : b < e
  · by_cases hnil : m.m_map = []
    · by_cases hv : v ≠ m.m_valBegin
      · have hmap2 : insertOrAssign (insertOrAssign ([] : List (K × V)) e m.m_valBegin) b v
            = [(b, v), (e, m.m_valBegin)] := by
          show insertOrAssign [(e, m.m_valBegin)] b v = _
          show (if b < e then (b, v) :: [(e, m.m_valBegin)]
            else if e < b then (e, m.m_valBegin) :: insertOrAssign [] b v
            else (b, v) :: []) = _
          rw [if_pos hbe]
        have heq : m.assign b e v = ⟨m.m_valBegin, [(b, v), (e, m.m_valBegin)]⟩ := by
          rw [interval_map.assign, if_neg (not_not_intro hbe), if_pos hnil,
            if_pos hv, hmap2]
        rw [heq]
        refine ⟨?_, ?_, ?_⟩
        · rw [keysSorted]
          exact List.Pairwise.cons
            (fun q hq => by rw [List.mem_singleton.1 hq]; exact hbe)
            (List.pairwise_singleton _ _)
        · intro p hp
          have : (e, m.m_valBegin) = p := by simpa using hp
          rw [← this]
        · intro p hp
          have : (b, v) = p := by simpa using hp
          rw [← this]
          exact hv
      · rw [interval_map.assign, if_neg (not_not_intro hbe), if_pos hnil, if_neg hv]
        exact ⟨hs, hT, hF⟩
    · rw [assign_eq_main m b e v hbe hnil]
      have hs4 : keysSorted (tailPhase m.m_valBegin (frontStrip m.m_valBegin
          (insertPhase (clearPhase m.m_map b e v) b v))) :=
        List.Pairwise.sublist (tailPhase_sublist _ _)
          (List.Pairwise.sublist (frontStrip_sublist _ _)
            (keysSorted_insertPhase b v (keysSorted_clearPhase b e v hs)))
      by_cases h4 : tailPhase m.m_valBegin (frontStrip m.m_valBegin
          (insertPhase (clearPhase m.m_map b e v) b v)) = []
      · rw [if_pos h4, h4]
        refine ⟨List.Pairwise.nil, ?_, ?_⟩
        · intro p hp
          simp at hp
        · intro p hp
          simp at hp
      · rw [if_neg h4]
        have hkeyle : ∀ p ∈ tailPhase m.m_valBegin (frontStrip m.m_valBegin
            (insertPhase (clearPhase m.m_map b e v) b v)), p.1 ≤ lastKeyOf m e := by
          intro p hp
          rcases mem_l4_cases hp with hin | hb | ⟨he1, q2, hq2, hq2e⟩
          · exact le_lastKeyOf_of_mem e hs hin
          · rw [hb]
            exact le_of_lt (lt_of_lt_of_le hbe (e_le_lastKeyOf m e))
          · rw [he1]
            exact e_le_lastKeyOf m e
        have hstrict : ∀ q, (tailPhase m.m_valBegin (frontStrip m.m_valBegin
            (insertPhase (clearPhase m.m_map b e v) b v))).getLast? = some q →
            q.2 ≠ m.m_valBegin → q.1 < lastKeyOf m e := by
          intro q hq hqv
          obtain ⟨r, hr⟩ : ∃ r, m.m_map.getLast? = some r := by
            cases hmm : m.m_map with
            | nil => exact absurd hmm hnil
            | cons a t =>
                exact ⟨(a :: t).getLast (by simp), List.getLast?_eq_getLast _ _⟩
          rcases mem_l4_cases (mem_of_getLast? hq) with hin | hb | ⟨he1, q2, hq2, hq2e⟩
          · rcases lt_or_eq_of_le (le_lastKeyOf_of_mem e hs hin) with h | h
            · exact h
            · exfalso
              by_cases hre : r.1 < e
              · have h1 : q.1 ≤ r.1 := le_of_mem_getLast hs hin hr
                have h2 : lastKeyOf m e = e := by
                  simp only [lastKeyOf, hr]
                  rw [if_pos hre]
                rw [h2] at h
                exact absurd (lt_of_le_of_lt h1 hre) (by rw [h]; exact lt_irrefl e)
              · have h2 : lastKeyOf m e = r.1 := by
                  simp only [lastKeyOf, hr]
                  rw [if_neg hre]
                rw [h2] at h
                have : q = r := eq_getLast_of_key_eq hs hin hr h
                rw [this] at hqv
                exact hqv (hT r hr)
          · rw [hb]
            exact lt_of_lt_of_le hbe (e_le_lastKeyOf m e)
          · rw [he1]
            have h2 : q2.1 ≤ r.1 := le_of_mem_getLast hs hq2 hr
            have her : e < r.1 := lt_of_lt_of_le hq2e h2
            have h3 : lastKeyOf m e = r.1 := by
              simp only [lastKeyOf, hr]
              rw [if_neg (not_lt.2 (le_of_lt her))]
            rw [h3]
            exact her
        refine ⟨keysSorted_finalPhase hs4, ?_, ?_⟩
        · intro p hp
          exact getLast?_finalPhase hs4 h4 hkeyle p hp
        · intro p hp
          exact head?_frontStrip (head?_tailPhase (head?_finalPhase hs4 hstrict hp))
  · rw [interval_map.assign, if_pos hbe]
    exact ⟨hs, hT, hF⟩

/-- Every reachable state satisfies the basic invariant. -/
theorem reachable_inv {m : interval_map K V} (h : Reachable m) : Inv m := by
  induction h with
  | ctor v =>
      refine ⟨List.Pairwise.nil, ?_, ?_⟩
      · intro p hp
        simp [interval_map.ctor] at hp
      · intro p hp
        simp [interval_map.ctor] at hp
  | step m b e v hm ih => exact inv_assign b e v ih

/-! ### Claim C9: trailing sentinel invariant -/

/-- Claim C9: after every `assign` call in any sequence applied to a freshly
constructed map, a non-empty boundary store ends in an entry whose value
equals `m_valBegin` (the explicit trailing default entry bounding the last
real interval). -/
theorem assign_trailing_default (m : interval_map K V) (b e : K) (v : V)
    (h : Reachable m) :
    ∀ p, (m.assign b e v).m_map.getLast? = some p →
      p.2 = (m.assign b e v).m_valBegin :=
  (reachable_inv (Reachable.step m b e v h)).2.1

/-- Witness for C9: `assign(1, 3, 'B')` on a fresh map ends with `(3, 'A')`. -/
theorem assign_trailing_default_witness :
    ((interval_map.ctor 'A' : interval_map Int Char).assign 1 3 'B').m_map.getLast?
      = some ((3 : Int), 'A') ∧
    (((3 : Int), 'A') : Int × Char).2
      = ((interval_map.ctor 'A' : interval_map Int Char).assign 1 3 'B').m_valBegin :=
  ⟨by decide, assign_trailing_default _ 1 3 'B' (Reachable.ctor 'A') _ (by decide)⟩

/-! ### Claim C10: the store never holds exactly one entry -/

/-- Claim C10: after every `assign` call in any sequence applied to a freshly
constructed map, `size()` is 0 or at least 2; the store never holds exactly
one entry once an `assign` call returns. -/
theorem assign_size_not_one (m : interval_map K V) (b e : K) (v : V)
    (h : Reachable m) :
    (m.assign b e v).size = 0 ∨ 2 ≤ (m.assign b e v).size := by
  obtain ⟨hs, hT, hF⟩ := reachable_inv (Reachable.step m b e v h)
  cases hmm : (m.assign b e v).m_map with
  | nil =>
      left
      rw [interval_map.size, hmm]
      rfl
  | cons a t =>
      cases t with
      | nil =>
          exfalso
          have h1 := hF a (by rw [hmm]; rfl)
          have h2 := hT a (by rw [hmm]; rfl)
          exact h1 h2
      | cons c t2 =>
          right
          rw [interval_map.size, hmm]
          simp only [List.length_cons]
          omega

/-- Witness for C10 at a concrete reachable call. -/
theorem assign_size_not_one_witness :
    ((interval_map.ctor 'A' : interval_map Int Char).assign 1 3 'B').size = 0 ∨
      2 ≤ ((interval_map.ctor 'A' : interval_map Int Char).assign 1 3 'B').size :=
  assign_size_not_one _ 1 3 'B' (Reachable.ctor 'A')

/-! ### Adjacent values distinct: machinery for the canonicity claim -/

/-- Second invariant of canonical form: no two consecutive entries hold equal
values. -/
def valuesDistinct (l : List (K × V)) : Prop :=
  List.Chain' (fun p q : K × V => p.2 ≠ q.2) l

theorem takeWhile_append_of_all {q : K × V → Bool} {P X : List (K × V)}
    (h : ∀ p ∈ P, q p = true) : (P ++ X).takeWhile q = P ++ X.takeWhile q := by
  induction P with
  | nil => rfl
  | cons a t ih =>
      rw [List.cons_append, List.takeWhile_cons, if_pos (h a (List.mem_cons_self _ _)),
        ih (fun p hp => h p (List.mem_cons_of_mem _ hp))]
      rfl

theorem dropWhile_append_of_all {q : K × V → Bool} {P X : List (K × V)}
    (h : ∀ p ∈ P, q p = true) : (P ++ X).dropWhile q = X.dropWhile q := by
  induction P with
  | nil => rfl
  | cons a t ih =>
      rw [List.cons_append, List.dropWhile_cons, if_pos (h a (List.mem_cons_self _ _))]
      exact ih (fun p hp => h p (List.mem_cons_of_mem _ hp))

theorem takeWhile_append_stop {q : K × V → Bool} {s t : List (K × V)} {z : K × V}
    (hall : ∀ p ∈ s, q p = true) (hz : q z = false) :
    (s ++ z :: t).takeWhile q = s := by
  rw [takeWhile_append_of_all hall, List.takeWhile_cons, if_neg (by rw [hz]; simp)]
  rw [List.append_nil]

theorem dropWhile_append_stop {q : K × V → Bool} {s t : List (K × V)} {z : K × V}
    (hall : ∀ p ∈ s, q p = true) (hz : q z = false) :
    (s ++ z :: t).dropWhile q = z :: t := by
  rw [dropWhile_append_of_all hall, List.dropWhile_cons, if_neg (by rw [hz]; simp)]

theorem insertOrAssign_append_right {X Y : List (K × V)} {k : K} {v : V}
    (hX : ∀ p ∈ X, p.1 < k) :
    insertOrAssign (X ++ Y) k v = X ++ insertOrAssign Y k v := by
  induction X with
  | nil => rfl
  | cons a t ih =>
      rw [List.cons_append,
        insertOrAssign_cons_of_lt (hX a (List.mem_cons_self _ _)),
        ih (fun p hp => hX p (List.mem_cons_of_mem _ hp))]
      rfl

theorem insertOrAssign_all_gt {Y : List (K × V)} {k : K} {v : V}
    (hY : ∀ p ∈ Y, k < p.1) :
    insertOrAssign Y k v = (k, v) :: Y := by
  cases Y with
  | nil => rfl
  | cons a t =>
      obtain ⟨k1, v1⟩ := a
      show (if k < k1 then (k, v) :: (k1, v1) :: t
        else if k1 < k then (k1, v1) :: insertOrAssign t k v
        else (k, v) :: t) = _
      rw [if_pos (hY (k1, v1) (List.mem_cons_self _ _))]

theorem insertOrAssign_middle {X Y : List (K × V)} {k : K} {v : V}
    (hX : ∀ p ∈ X, p.1 < k) (hY : ∀ p ∈ Y, k < p.1) :
    insertOrAssign (X ++ Y) k v = X ++ (k, v) :: Y := by
  rw [insertOrAssign_append_right hX, insertOrAssign_all_gt hY]

theorem insertOrAssign_replace {X Y : List (K × V)} {k : K} {x : V} {v : V}
    (hX : ∀ p ∈ X, p.1 < k) :
    insertOrAssign (X ++ (k, x) :: Y) k v = X ++ (k, v) :: Y := by
  rw [insertOrAssign_append_right hX]
  congr 1
  show (if k < k then (k, v) :: (k, x) :: Y
    else if k < k then (k, x) :: insertOrAssign Y k v
    else (k, v) :: Y) = (k, v) :: Y
  rw [if_neg (lt_irrefl k), if_neg (lt_irrefl k)]

theorem foldl_eraseKey_eq_filter (ks : List K) (l : List (K × V)) :
    ks.foldl (fun acc k => eraseKey acc k) l
      = l.filter (fun p => decide (p.1 ∉ ks)) := by
  induction ks generalizing l with
  | nil => simp
  | cons k ks ih =>
      simp only [List.foldl_cons]
      rw [ih, eraseKey, List.filter_filter]
      refine List.filter_congr ?_
      intro p hp
      by_cases h1 : p.1 = k
      · simp [h1]
      · by_cases h2 : p.1 ∈ ks
        · simp [h1, h2]
        · simp [h1, h2]

theorem getLast?_eq_of_max {l : List (K × V)} {p : K × V}
    (hs : keysSorted l) (hp : p ∈ l) (hmax : ∀ q ∈ l, q.1 ≤ p.1) :
    l.getLast? = some p := by
  induction l with
  | nil => simp at hp
  | cons a t ih =>
      rw [keysSorted, List.pairwise_cons] at hs
      obtain ⟨h1, ht⟩ := hs
      rcases List.mem_cons.1 hp with rfl | hp
      · cases t with
        | nil => rfl
        | cons c t2 =>
            exact absurd (hmax c (List.mem_cons_of_mem _ (List.mem_cons_self _ _)))
              (not_le.2 (h1 c (List.mem_cons_self _ _)))
      · have hne : t ≠ [] := fun hc => by rw [hc] at hp; simp at hp
        rw [getLast?_cons_of_ne_nil _ hne]
        exact ih ht hp (fun q hq => hmax q (List.mem_cons_of_mem _ hq))

theorem clearStep_gt {b e : K} {v : V} {k : K} {w : V} {rest : List (K × V)}
    (hek : e < k) (hbe : b < e) :
    clearStep b e v k w rest = (none, []) := by
  have h1 : ¬ (¬ b < k ∧ ¬ k < b ∧ w = v) := fun h => h.1 (lt_trans hbe hek)
  have h2 : ¬ (¬ e < k ∧ w = v) := fun h => h.1 hek
  have h3 : ¬ (¬ k < b ∧ k < e) := fun h => absurd h.2 (not_lt.2 (le_of_lt hek))
  rw [clearStep.eq_def, if_neg h1, if_neg h2, if_neg h3]

theorem clearStep_at_e_val {b e : K} {v : V} {rest : List (K × V)}
    (hbe : b < e) :
    clearStep b e v e v rest = (none, [e]) := by
  have h1 : ¬ (¬ b < e ∧ ¬ e < b ∧ v = v) := fun h => h.1 hbe
  have h2 : (¬ e < e ∧ v = v) := ⟨lt_irrefl e, rfl⟩
  rw [clearStep.eq_def, if_neg h1, if_pos h2]

theorem clearStep_at_e_noval {b e : K} {v w : V} {rest : List (K × V)}
    (hbe : b < e) (hw : w ≠ v) :
    clearStep b e v e w rest = (none, []) := by
  have h1 : ¬ (¬ b < e ∧ ¬ e < b ∧ w = v) := fun h => h.1 hbe
  have h2 : ¬ (¬ e < e ∧ w = v) := fun h => hw h.2
  have h3 : ¬ (¬ e < b ∧ e < e) := fun h => lt_irrefl e h.2
  rw [clearStep.eq_def, if_neg h1, if_neg h2, if_neg h3]

theorem clearStep_b_self {b e : K} {v : V} {rest : List (K × V)}
    (hD : ∀ q, rest.head? = some q → q.2 ≠ v) :
    clearStep b e v b v rest = (none, []) := by
  have h1 : (¬ b < b ∧ ¬ b < b ∧ v = v) := ⟨lt_irrefl b, lt_irrefl b, rfl⟩
  cases rest with
  | nil => rw [clearStep.eq_def, if_pos h1]
  | cons q rest2 =>
      obtain ⟨k2, w2⟩ := q
      have hw2 : w2 ≠ v := hD (k2, w2) rfl
      rw [clearStep.eq_def, if_pos h1]
      show (if w2 = v then ((none : Option (K × V)), [k2])
        else ((none : Option (K × V)), [])) = ((none : Option (K × V)), [])
      rw [if_neg hw2]

theorem clearStep_del_val {b e : K} {v : V} {k : K} {rest : List (K × V)}
    (hkb : k ≠ b) (hke : ¬ e < k) :
    clearStep b e v k v rest = (none, [k]) := by
  have h1 : ¬ (¬ b < k ∧ ¬ k < b ∧ v = v) := by
    intro h
    exact hkb (le_antisymm (not_lt.1 h.1) (not_lt.1 h.2.1))
  rw [clearStep.eq_def, if_neg h1, if_pos ⟨hke, rfl⟩]

theorem clearStep_del_other_nores {b e : K} {v : V} {k : K} {w : V}
    {rest : List (K × V)}
    (hw : w ≠ v) (hkb : ¬ k < b) (hke : k < e)
    (hrest : ∀ q, rest.head? = some q → ¬ e < q.1) :
    clearStep b e v k w rest = (none, [k]) := by
  have h1 : ¬ (¬ b < k ∧ ¬ k < b ∧ w = v) := fun h => hw h.2.2
  have h2 : ¬ (¬ e < k ∧ w = v) := fun h => hw h.2
  cases rest with
  | nil => rw [clearStep.eq_def, if_neg h1, if_neg h2, if_pos ⟨hkb, hke⟩]
  | cons q rest2 =>
      obtain ⟨k2, w2⟩ := q
      rw [clearStep.eq_def, if_neg h1, if_neg h2, if_pos ⟨hkb, hke⟩]
      show (if e < k2 then ((some (e, w) : Option (K × V)), [k])
        else ((none : Option (K × V)), [k])) = ((none : Option (K × V)), [k])
      rw [if_neg (hrest (k2, w2) rfl)]

theorem clearStep_del_other_res {b e : K} {v : V} {k : K} {w : V}
    {z : K × V} {rest2 : List (K × V)}
    (hw : w ≠ v) (hkb : ¬ k < b) (hke : k < e) (hze : e < z.1) :
    clearStep b e v k w (z :: rest2) = (some (e, w), [k]) := by
  have h1 : ¬ (¬ b < k ∧ ¬ k < b ∧ w = v) := fun h => hw h.2.2
  have h2 : ¬ (¬ e < k ∧ w = v) := fun h => hw h.2
  obtain ⟨k2, w2⟩ := z
  rw [clearStep.eq_def, if_neg h1, if_neg h2, if_pos ⟨hkb, hke⟩]
  show (if e < k2 then ((some (e, w) : Option (K × V)), [k])
    else ((none : Option (K × V)), [k])) = ((some (e, w) : Option (K × V)), [k])
  rw [if_pos hze]

/-- Characterization of the scanning loop on the suffix starting at
`lower_bound(keyBegin)`, for a sorted store with pairwise-distinct adjacent
values: the collected deletions are exactly the entries of the affected
prefix `takeWhile (≤ keyEnd)` other than a kept entry `(keyBegin, value)` and
a kept entry at `keyEnd` with a different value; the pending resize, when
present, carries `keyEnd` and the value of the last affected entry, which is
then not at `keyEnd` and not of the assigned value. -/
theorem clearLoop_main {s : List (K × V)} {b e : K} {v : V}
    (hs : keysSorted s) (hd : valuesDistinct s) (hbe : b < e)
    (hb : ∀ p ∈ s, ¬ p.1 < b) :
    (∀ x ∈ (clearLoop b e v s).2, ∃ p ∈ s.takeWhile (fun p => decide (p.1 ≤ e)),
        p.1 = x ∧ ¬ (p.1 = b ∧ p.2 = v) ∧ ¬ (p.1 = e ∧ p.2 ≠ v)) ∧
    (∀ p ∈ s.takeWhile (fun p => decide (p.1 ≤ e)),
        ¬ (p.1 = b ∧ p.2 = v) → ¬ (p.1 = e ∧ p.2 ≠ v) →
        p.1 ∈ (clearLoop b e v s).2) ∧
    ((clearLoop b e v s).1 = none ∨
      ∃ pA, (s.takeWhile (fun p => decide (p.1 ≤ e))).getLast? = some pA ∧
        pA.1 ≠ e ∧ pA.2 ≠ v ∧ (clearLoop b e v s).1 = some (e, pA.2)) := by
  induction s with
  | nil => exact ⟨by simp [clearLoop], by simp, Or.inl rfl⟩
  | cons a rest ih =>
      obtain ⟨k, w⟩ := a
      rw [keysSorted, List.pairwise_cons] at hs
      obtain ⟨h1, ht⟩ := hs
      have hdt : valuesDistinct rest := hd.tail
      have hkb : ¬ k < b := hb (k, w) (List.mem_cons_self _ _)
      rcases lt_trichotomy k e with hke | hke | hke
      · -- k < e : the loop continues past this entry
        obtain ⟨ih1, ih2, ih3⟩ := ih ht hdt
          (fun p hp => hb p (List.mem_cons_of_mem _ hp))
        have hA : ((k, w) :: rest).takeWhile (fun p => decide (p.1 ≤ e))
            = (k, w) :: rest.takeWhile (fun p => decide (p.1 ≤ e)) := by
          rw [List.takeWhile_cons, if_pos (decide_eq_true (le_of_lt hke))]
        by_cases hbr1 : k = b ∧ w = v
        · -- the entry is exactly (keyBegin, value): nothing is deleted
          have hD : ∀ q, rest.head? = some q → q.2 ≠ v := by
            intro q hq hqv
            have := (List.chain'_cons'.1 hd).1 q hq
            exact this (hbr1.2.trans hqv.symm)
          have hst : clearStep b e v k w rest = (none, []) := by
            rw [hbr1.1, hbr1.2]
            exact clearStep_b_self hD
          rw [clearLoop_cons, if_pos hke, hst, hA]
          refine ⟨?_, ?_, ?_⟩
          · intro x hx
            have hx2 : x ∈ ([] : List K) ++ (clearLoop b e v rest).2 := hx
            rw [List.nil_append] at hx2
            obtain ⟨p, hp, hrest⟩ := ih1 x hx2
            exact ⟨p, List.mem_cons_of_mem _ hp, hrest⟩
          · intro p hp hc1 hc2
            rcases List.mem_cons.1 hp with rfl | hp
            · exact absurd ⟨hbr1.1, hbr1.2⟩ hc1
            · have := ih2 p hp hc1 hc2
              exact List.mem_append.2 (Or.inr this)
          · rcases ih3 with hnone | ⟨pA, hgA, hpe, hpv, hsome⟩
            · left
              show (clearLoop b e v rest).1.orElse _ = none
              rw [orElse_eq_of_none hnone]
            · right
              refine ⟨pA, ?_, hpe, hpv, ?_⟩
              · rw [getLast?_cons_of_ne_nil]
                · exact hgA
                · intro hc
                  rw [hc] at hgA
                  simp at hgA
              · show (clearLoop b e v rest).1.orElse _ = some (e, pA.2)
                rw [hsome]
                rfl
        · by_cases hbr2 : w = v
          · -- value matches but key differs from keyBegin: entry deleted
            have hkne : k ≠ b := fun hc => hbr1 ⟨hc, hbr2⟩
            have hst : clearStep b e v k w rest = (none, [k]) := by
              rw [hbr2]
              exact clearStep_del_val hkne (not_lt.2 (le_of_lt hke))
            rw [clearLoop_cons, if_pos hke, hst, hA]
            refine ⟨?_, ?_, ?_⟩
            · intro x hx
              have hx2 : x ∈ [k] ++ (clearLoop b e v rest).2 := hx
              rcases List.mem_append.1 hx2 with hx3 | hx3
              · refine ⟨(k, w), List.mem_cons_self _ _,
                  (List.mem_singleton.1 hx3).symm, ?_, ?_⟩
                · intro hc
                  exact hkne hc.1
                · intro hc
                  exact hc.2 hbr2
              · obtain ⟨p, hp, hrest⟩ := ih1 x hx3
                exact ⟨p, List.mem_cons_of_mem _ hp, hrest⟩
            · intro p hp hc1 hc2
              rcases List.mem_cons.1 hp with rfl | hp
              · exact List.mem_append.2 (Or.inl (List.mem_singleton_self _))
              · exact List.mem_append.2 (Or.inr (ih2 p hp hc1 hc2))
            · rcases ih3 with hnone | ⟨pA, hgA, hpe, hpv, hsome⟩
              · left
                show (clearLoop b e v rest).1.orElse _ = none
                rw [orElse_eq_of_none hnone]
              · right
                refine ⟨pA, ?_, hpe, hpv, ?_⟩
                · rw [getLast?_cons_of_ne_nil]
                  · exact hgA
                  · intro hc
                    rw [hc] at hgA
                    simp at hgA
                · show (clearLoop b e v rest).1.orElse _ = some (e, pA.2)
                  rw [hsome]
                  rfl
          · -- value differs: entry deleted, possibly with a resize carry
            cases hrest : rest with
            | nil =>
                have hst : clearStep b e v k w ([] : List (K × V)) = (none, [k]) :=
                  clearStep_del_other_nores hbr2 hkb hke (by intro q hq; simp at hq)
                subst hrest
                rw [clearLoop_cons, if_pos hke, hst, hA]
                refine ⟨?_, ?_, Or.inl rfl⟩
                · intro x hx
                  have hx2 : x ∈ [k] ++ (clearLoop b e v ([] : List (K × V))).2 := hx
                  rcases List.mem_append.1 hx2 with hx3 | hx3
                  · refine ⟨(k, w), List.mem_cons_self _ _,
                      (List.mem_singleton.1 hx3).symm, ?_, ?_⟩
                    · intro hc
                      exact hbr2 hc.2
                    · intro hc
                      exact absurd hc.1 (ne_of_lt hke)
                  · exact absurd hx3 (by simp [clearLoop])
                · intro p hp hc1 hc2
                  rcases List.mem_cons.1 hp with rfl | hp
                  · exact List.mem_append.2 (Or.inl (List.mem_singleton_self _))
                  · simp at hp
            | cons z rest2 =>
                by_cases hz : e < z.1
                · -- resize carry: the successor lies beyond keyEnd
                  have hst : clearStep b e v k w (z :: rest2) = (some (e, w), [k]) :=
                    clearStep_del_other_res hbr2 hkb hke hz
                  have hAr : (z :: rest2).takeWhile (fun p => decide (p.1 ≤ e))
                      = [] := by
                    rw [List.takeWhile_cons, if_neg (by simpa using not_le.2 hz)]
                  have hrnone : (clearLoop b e v rest).1 = none := by
                    rcases ih3 with hnone | ⟨pA, hgA, _, _, _⟩
                    · exact hnone
                    · rw [hrest, hAr] at hgA
                      simp at hgA
                  subst hrest
                  rw [clearLoop_cons, if_pos hke, hst, hA, hAr]
                  refine ⟨?_, ?_, ?_⟩
                  · intro x hx
                    have hx2 : x ∈ [k] ++ (clearLoop b e v (z :: rest2)).2 := hx
                    rcases List.mem_append.1 hx2 with hx3 | hx3
                    · refine ⟨(k, w), List.mem_cons_self _ _,
                        (List.mem_singleton.1 hx3).symm, ?_, ?_⟩
                      · intro hc
                        exact hbr2 hc.2
                      · intro hc
                        exact absurd hc.1 (ne_of_lt hke)
                    · obtain ⟨p, hp, hrest2⟩ := ih1 x hx3
                      rw [hAr] at hp
                      simp at hp
                  · intro p hp hc1 hc2
                    rcases List.mem_cons.1 hp with rfl | hp
                    · exact List.mem_append.2 (Or.inl (List.mem_singleton_self _))
                    · simp at hp
                  · right
                    refine ⟨(k, w), rfl, ne_of_lt hke, hbr2, ?_⟩
                    show (clearLoop b e v (z :: rest2)).1.orElse _ = some (e, w)
                    rw [orElse_eq_of_none hrnone]
                · -- no resize: the successor is still within the span
                  have hst : clearStep b e v k w rest = (none, [k]) := by
                    refine clearStep_del_other_nores hbr2 hkb hke ?_
                    intro q hq
                    rw [hrest] at hq
                    have hzq : z = q := by simpa using hq
                    rw [← hzq]
                    exact hz
                  subst hrest
                  rw [clearLoop_cons, if_pos hke, hst, hA]
                  refine ⟨?_, ?_, ?_⟩
                  · intro x hx
                    have hx2 : x ∈ [k] ++ (clearLoop b e v (z :: rest2)).2 := hx
                    rcases List.mem_append.1 hx2 with hx3 | hx3
                    · refine ⟨(k, w), List.mem_cons_self _ _,
                        (List.mem_singleton.1 hx3).symm, ?_, ?_⟩
                      · intro hc
                        exact hbr2 hc.2
                      · intro hc
                        exact absurd hc.1 (ne_of_lt hke)
                    · obtain ⟨p, hp, hrest2⟩ := ih1 x hx3
                      exact ⟨p, List.mem_cons_of_mem _ hp, hrest2⟩
                  · intro p hp hc1 hc2
                    rcases List.mem_cons.1 hp with rfl | hp
                    · exact List.mem_append.2 (Or.inl (List.mem_singleton_self _))
                    · exact List.mem_append.2 (Or.inr (ih2 p hp hc1 hc2))
                  · rcases ih3 with hnone | ⟨pA, hgA, hpe, hpv, hsome⟩
                    · left
                      show (clearLoop b e v (z :: rest2)).1.orElse _ = none
                      rw [orElse_eq_of_none hnone]
                    · right
                      refine ⟨pA, ?_, hpe, hpv, ?_⟩
                      · rw [getLast?_cons_of_ne_nil]
                        · exact hgA
                        · intro hc
                          rw [hc] at hgA
                          simp at hgA
                      · show (clearLoop b e v (z :: rest2)).1.orElse _ = some (e, pA.2)
                        rw [hsome]
                        rfl
      · -- k = e : the loop stops after this entry
        subst hke
        have hnlt : ¬ k < k := lt_irrefl k
        have hA : ((k, w) :: rest).takeWhile (fun p => decide (p.1 ≤ k))
            = [(k, w)] := by
          rw [List.takeWhile_cons, if_pos (by simp)]
          cases hrest : rest with
          | nil => rfl
          | cons z rest2 =>
              have hzk := h1 z (by rw [hrest]; exact List.mem_cons_self _ _)
              rw [List.takeWhile_cons, if_neg (by simpa using not_le.2 hzk)]
        by_cases hw : w = v
        · have hst : clearStep b k v k w rest = (none, [k]) := by
            rw [hw]
            exact clearStep_at_e_val hbe
          rw [clearLoop_cons, if_neg hnlt, hst, hA]
          refine ⟨?_, ?_, Or.inl rfl⟩
          · intro x hx
            refine ⟨(k, w), List.mem_cons_self _ _, (List.mem_singleton.1 hx).symm,
              ?_, ?_⟩
            · intro hc
              exact absurd hc.1.symm (ne_of_lt hbe)
            · intro hc
              exact hc.2 hw
          · intro p hp hc1 hc2
            rcases List.mem_singleton.1 hp with rfl
            exact List.mem_singleton_self _
        · have hst : clearStep b k v k w rest = (none, []) :=
            clearStep_at_e_noval hbe hw
          rw [clearLoop_cons, if_neg hnlt, hst, hA]
          refine ⟨?_, ?_, Or.inl rfl⟩
          · intro x hx
            simp at hx
          · intro p hp hc1 hc2
            rcases List.mem_singleton.1 hp with rfl
            exact absurd ⟨rfl, hw⟩ hc2
      · -- e < k : the entry lies beyond the affected span
        have hst : clearStep b e v k w rest = (none, []) := clearStep_gt hke hbe
        have hA : ((k, w) :: rest).takeWhile (fun p => decide (p.1 ≤ e))
            = [] := by
          rw [List.takeWhile_cons, if_neg (by simpa using not_le.2 hke)]
        rw [clearLoop_cons, if_neg (not_lt.2 (le_of_lt hke)), hst, hA]
        refine ⟨?_, ?_, Or.inl rfl⟩
        · intro x hx
          simp at hx
        · intro p hp hc1 hc2
          simp at hp

theorem all_bv_shape {A : List (K × V)} {b : K} {v : V} (hsA : keysSorted A)
    (hmem : ∀ p ∈ A, p.1 = b ∧ p.2 = v) : A = [] ∨ A = [(b, v)] := by
  cases hA : A with
  | nil => exact Or.inl rfl
  | cons p t =>
      right
      have hp := hmem p (hA ▸ List.mem_cons_self _ _)
      have ht : t = [] := by
        cases hT : t with
        | nil => rfl
        | cons r t2 =>
            have hr := hmem r (by rw [hA, hT]; exact
              List.mem_cons_of_mem _ (List.mem_cons_self _ _))
            have hlt : p.1 < r.1 := by
              have := hA ▸ hsA
              rw [keysSorted, List.pairwise_cons] at this
              exact this.1 r (hT ▸ List.mem_cons_self _ _)
            rw [hp.1, hr.1] at hlt
            exact absurd hlt (lt_irrefl b)
      rw [ht]
      obtain ⟨p1, p2⟩ := p
      simp only at hp
      rw [hp.1, hp.2]

theorem mid_shape {A : List (K × V)} {b e : K} {v : V} (hsA : keysSorted A)
    (hbe : b < e)
    (hmem : ∀ p ∈ A, (p.1 = b ∧ p.2 = v) ∨ (p.1 = e ∧ p.2 ≠ v)) :
    A = [] ∨ A = [(b, v)] ∨
    (∃ w, w ≠ v ∧ (A = [(e, w)] ∨ A = [(b, v), (e, w)])) := by
  cases hA : A with
  | nil => exact Or.inl rfl
  | cons p t =>
      have hkey : ∀ r ∈ A, r.1 = b ∨ r.1 = e := by
        intro r hr
        rcases hmem r hr with h | h
        · exact Or.inl h.1
        · exact Or.inr h.1
      have hsorted := hA ▸ hsA
      rw [keysSorted, List.pairwise_cons] at hsorted
      rcases hmem p (hA ▸ List.mem_cons_self _ _) with hp | hp
      · -- first entry is (b, v)
        obtain ⟨p1, p2⟩ := p
        simp only at hp
        cases hT : t with
        | nil =>
            right
            left
            rw [hp.1, hp.2]
        | cons q t2 =>
            have hq := hmem q (by rw [hA, hT]; exact
              List.mem_cons_of_mem _ (List.mem_cons_self _ _))
            have hpq : (p1, p2).1 < q.1 := hsorted.1 q (hT ▸ List.mem_cons_self _ _)
            rcases hq with hq | hq
            · rw [hp.1, hq.1] at hpq
              exact absurd hpq (lt_irrefl b)
            · have ht2 : t2 = [] := by
                cases hT2 : t2 with
                | nil => rfl
                | cons r t3 =>
                    have hr : r ∈ A := by
                      rw [hA, hT, hT2]
                      exact List.mem_cons_of_mem _ (List.mem_cons_of_mem _
                        (List.mem_cons_self _ _))
                    have hqr : q.1 < r.1 := by
                      have h2 := hA ▸ hsA
                      rw [keysSorted] at h2
                      have h3 := (List.pairwise_cons.1 h2).2
                      rw [hT] at h3
                      exact (List.pairwise_cons.1 h3).1 r
                        (hT2 ▸ List.mem_cons_self _ _)
                    rcases hkey r hr with h | h
                    · rw [hq.1, h] at hqr
                      exact absurd (lt_trans hbe hqr) (lt_irrefl b)
                    · rw [hq.1, h] at hqr
                      exact absurd hqr (lt_irrefl e)
              right
              right
              refine ⟨q.2, hq.2, Or.inr ?_⟩
              rw [ht2, hp.1, hp.2]
              obtain ⟨q1, q2⟩ := q
              simp only at hq
              rw [hq.1]
      · -- first entry is at keyEnd: it must be alone
        obtain ⟨p1, p2⟩ := p
        simp only at hp
        have ht : t = [] := by
          cases hT : t with
          | nil => rfl
          | cons q t2 =>
              have hq : q ∈ A := by
                rw [hA, hT]
                exact List.mem_cons_of_mem _ (List.mem_cons_self _ _)
              have hpq : (p1, p2).1 < q.1 :=
                hsorted.1 q (hT ▸ List.mem_cons_self _ _)
              rcases hkey q hq with h | h
              · rw [hp.1, h] at hpq
                exact absurd (lt_trans hbe hpq) (lt_irrefl b)
              · rw [hp.1, h] at hpq
                exact absurd hpq (lt_irrefl e)
        right
        right
        refine ⟨p2, hp.2, Or.inl ?_⟩
        rw [ht, hp.1]

theorem junction_ne {s : List (K × V)} {e : K} (hd : valuesDistinct s)
    {pA : K × V}
    (hlast : (s.takeWhile (fun p => decide (p.1 ≤ e))).getLast? = some pA) :
    ∀ q, (s.dropWhile (fun p => decide (p.1 ≤ e))).head? = some q →
      pA.2 ≠ q.2 := by
  intro q hq
  have hsplit := hd
  rw [show s = s.takeWhile (fun p => decide (p.1 ≤ e))
    ++ s.dropWhile (fun p => decide (p.1 ≤ e)) from
    (List.takeWhile_append_dropWhile _ _).symm] at hsplit
  exact (List.chain'_append.1 hsplit).2.2 pA hlast q hq

/-- Shape of the clearing block's output on a sorted store with distinct
adjacent values: the untouched prefix (keys below `keyBegin`), then a middle
of at most two entries — the original `(keyBegin, value)` entry if it existed,
and an entry at `keyEnd` with a value different from `value` and from the
value of the first entry past `keyEnd` — then the untouched suffix (keys
above `keyEnd`). -/
theorem clearPhase_shape {l : List (K × V)} {b e : K} {v : V}
    (hs : keysSorted l) (hd : valuesDistinct l) (hbe : b < e) :
    ∃ mid, clearPhase l b e v
        = l.takeWhile (fun p => decide (p.1 < b)) ++ mid
          ++ l.dropWhile (fun p => decide (p.1 ≤ e))
      ∧ (mid = []
         ∨ mid = [(b, v)]
         ∨ (∃ w, w ≠ v
              ∧ (∀ q, (l.dropWhile (fun p => decide (p.1 ≤ e))).head? = some q →
                  w ≠ q.2)
              ∧ (mid = [(e, w)] ∨ mid = [(b, v), (e, w)]))) := by
  obtain ⟨P, hP⟩ : ∃ P, l.takeWhile (fun p => decide (p.1 < b)) = P := ⟨_, rfl⟩
  obtain ⟨S0, hS0⟩ : ∃ S0, l.dropWhile (fun p => decide (p.1 < b)) = S0 := ⟨_, rfl⟩
  obtain ⟨A, hA⟩ : ∃ A, S0.takeWhile (fun p => decide (p.1 ≤ e)) = A := ⟨_, rfl⟩
  obtain ⟨Z, hZ⟩ : ∃ Z, S0.dropWhile (fun p => decide (p.1 ≤ e)) = Z := ⟨_, rfl⟩
  have hPS : P ++ S0 = l := by
    rw [← hP, ← hS0]
    exact List.takeWhile_append_dropWhile _ _
  have hPb : ∀ p ∈ P, p.1 < b := by
    intro p hp
    rw [← hP] at hp
    have h2 := List.mem_takeWhile_imp hp
    exact of_decide_eq_true h2
  have hS0b : ∀ p ∈ S0, ¬ p.1 < b := by
    intro p hp
    rw [← hS0] at hp
    exact mem_dropWhile_key_ge hs b p hp
  have hsS0 : keysSorted S0 := by
    rw [← hS0]
    exact List.Pairwise.sublist (List.dropWhile_suffix _).sublist hs
  have hdS0 : valuesDistinct S0 := by
    rw [← hS0]
    exact hd.suffix (List.dropWhile_suffix _)
  obtain ⟨cl1, cl2, cl3⟩ := clearLoop_main (v := v) hsS0 hdS0 hbe hS0b
  rw [hA] at cl1 cl2 cl3
  have hAe : ∀ p ∈ A, p.1 ≤ e := by
    intro p hp
    rw [← hA] at hp
    have h2 := List.mem_takeWhile_imp hp
    exact of_decide_eq_true h2
  have hZe : ∀ p ∈ Z, e < p.1 := by
    intro p hp
    rw [← hZ] at hp
    exact mem_dropWhile_key_gt hsS0 e p hp
  have hAb : ∀ p ∈ A, ¬ p.1 < b := by
    intro p hp
    refine hS0b p ?_
    rw [← hA] at hp
    exact (List.takeWhile_prefix _).sublist.subset hp
  have hAZ : A ++ Z = S0 := by
    rw [← hA, ← hZ]
    exact List.takeWhile_append_dropWhile _ _
  have hsA : keysSorted A := by
    rw [← hA]
    exact List.Pairwise.sublist (List.takeWhile_prefix _).sublist hsS0
  have hZl : l.dropWhile (fun p => decide (p.1 ≤ e)) = Z := by
    rw [← hPS,
      dropWhile_append_of_all
        (fun p hp => decide_eq_true (le_of_lt (lt_trans (hPb p hp) hbe)))]
    exact hZ
  have hdel_keys : ∀ x ∈ (clearLoop b e v S0).2, ¬ x < b ∧ x ≤ e := by
    intro x hx
    obtain ⟨p, hp, hpx, _, _⟩ := cl1 x hx
    rw [← hpx]
    exact ⟨hAb p hp, hAe p hp⟩
  have hPfilter : P.filter (fun p => decide (p.1 ∉ (clearLoop b e v S0).2)) = P := by
    rw [List.filter_eq_self]
    intro p hp
    simp only [decide_eq_true_eq]
    intro hc
    exact (hdel_keys p.1 hc).1 (hPb p hp)
  have hZfilter : Z.filter (fun p => decide (p.1 ∉ (clearLoop b e v S0).2)) = Z := by
    rw [List.filter_eq_self]
    intro p hp
    simp only [decide_eq_true_eq]
    intro hc
    exact absurd (hZe p hp) (not_lt.2 (hdel_keys p.1 hc).2)
  have hmid0_mem : ∀ p ∈ A.filter (fun p => decide (p.1 ∉ (clearLoop b e v S0).2)),
      (p.1 = b ∧ p.2 = v) ∨ (p.1 = e ∧ p.2 ≠ v) := by
    intro p hp
    rw [List.mem_filter] at hp
    by_contra hc
    rw [not_or] at hc
    have hmem := cl2 p hp.1 hc.1 hc.2
    have h2 := hp.2
    simp only [decide_eq_true_eq] at h2
    exact h2 hmem
  have hsmid0 : keysSorted
      (A.filter (fun p => decide (p.1 ∉ (clearLoop b e v S0).2))) :=
    List.Pairwise.sublist (List.filter_sublist _) hsA
  rcases cl3 with hnone | ⟨pA, hgA, hpAe, hpAv, hsome⟩
  · -- no resize carry
    have hred : clearPhase l b e v
        = (clearLoop b e v S0).2.foldl (fun acc k => eraseKey acc k) l := by
      rw [clearPhase_unfold, hS0, hnone]
    have heq : clearPhase l b e v
        = P ++ A.filter (fun p => decide (p.1 ∉ (clearLoop b e v S0).2)) ++ Z := by
      have hlPAZ : l = P ++ A ++ Z := by
        rw [List.append_assoc, hAZ, hPS]
      rw [hred, foldl_eraseKey_eq_filter, hlPAZ, List.filter_append,
        List.filter_append, hPfilter, hZfilter]
    rcases mid_shape hsmid0 hbe hmid0_mem with hsh | hsh | ⟨w, hwv, hsh⟩
    · exact ⟨_, by rw [heq, hP, hZl], Or.inl hsh⟩
    · exact ⟨_, by rw [heq, hP, hZl], Or.inr (Or.inl hsh)⟩
    · have hew : (e, w) ∈ A := by
        have : (e, w) ∈ A.filter (fun p => decide (p.1 ∉ (clearLoop b e v S0).2)) := by
          rcases hsh with h | h <;> rw [h]
          · exact List.mem_singleton_self _
          · exact List.mem_cons_of_mem _ (List.mem_singleton_self _)
        exact (List.filter_sublist _).subset this
      have hglA : A.getLast? = some (e, w) :=
        getLast?_eq_of_max hsA hew (fun q hq => hAe q hq)
      have hJ : ∀ q, Z.head? = some q → w ≠ q.2 := by
        intro q hq
        have h1 : (S0.takeWhile (fun p => decide (p.1 ≤ e))).getLast?
            = some (e, w) := by
          rw [hA]
          exact hglA
        have h2 : (S0.dropWhile (fun p => decide (p.1 ≤ e))).head? = some q := by
          rw [hZ]
          exact hq
        exact junction_ne (e := e) hdS0 h1 q h2
      refine ⟨_, by rw [heq, hP, hZl], Or.inr (Or.inr ⟨w, hwv, ?_, hsh⟩)⟩
      intro q hq
      rw [hZl] at hq
      exact hJ q hq
  · -- resize carry at keyEnd
    have hAkey_lt : ∀ p ∈ A, p.1 < e := by
      intro p hp
      rcases lt_or_eq_of_le (hAe p hp) with h | h
      · exact h
      · exfalso
        have hle := le_of_mem_getLast hsA hp hgA
        rw [h] at hle
        exact hpAe (le_antisymm (hAe pA (mem_of_getLast? hgA)) hle)
    have hred : clearPhase l b e v
        = (clearLoop b e v S0).2.foldl (fun acc k => eraseKey acc k)
            (insertOrAssign l e pA.2) := by
      rw [clearPhase_unfold, hS0, hsome]
    have hinspos : insertOrAssign l e pA.2 = (P ++ A) ++ (e, pA.2) :: Z := by
      have hXlt : ∀ p ∈ P ++ A, p.1 < e := by
        intro p hp
        rcases List.mem_append.1 hp with h | h
        · exact lt_trans (hPb p h) hbe
        · exact hAkey_lt p h
      rw [show l = (P ++ A) ++ Z by rw [List.append_assoc, hAZ, hPS]]
      exact insertOrAssign_middle hXlt hZe
    have hE : e ∉ (clearLoop b e v S0).2 := by
      intro hc
      obtain ⟨p, hp, hpx, _, _⟩ := cl1 e hc
      exact absurd (hAkey_lt p hp) (by rw [hpx]; exact lt_irrefl e)
    have heq : clearPhase l b e v
        = P ++ (A.filter (fun p => decide (p.1 ∉ (clearLoop b e v S0).2))
            ++ [(e, pA.2)]) ++ Z := by
      rw [hred, foldl_eraseKey_eq_filter, hinspos, List.filter_append,
        List.filter_append, hPfilter]
      rw [show ((e, pA.2) :: Z).filter
            (fun p => decide (p.1 ∉ (clearLoop b e v S0).2))
          = (e, pA.2) :: Z by
        rw [List.filter_cons, if_pos (by simpa using hE), hZfilter]]
      simp [List.append_assoc]
    have hbv_only : ∀ p ∈ A.filter (fun p => decide (p.1 ∉ (clearLoop b e v S0).2)),
        p.1 = b ∧ p.2 = v := by
      intro p hp
      rcases hmid0_mem p hp with h | h
      · exact h
      · exfalso
        have := hAkey_lt p ((List.filter_sublist _).subset hp)
        rw [h.1] at this
        exact lt_irrefl e this
    have hJ : ∀ q, Z.head? = some q → pA.2 ≠ q.2 := by
      intro q hq
      have h1 : (S0.takeWhile (fun p => decide (p.1 ≤ e))).getLast? = some pA := by
        rw [hA]
        exact hgA
      have h2 : (S0.dropWhile (fun p => decide (p.1 ≤ e))).head? = some q := by
        rw [hZ]
        exact hq
      exact junction_ne (e := e) hdS0 h1 q h2
    rcases all_bv_shape hsmid0 hbv_only with hsh | hsh
    · refine ⟨[(e, pA.2)], ?_, Or.inr (Or.inr ⟨pA.2, hpAv, ?_, Or.inl rfl⟩)⟩
      · rw [heq, hP, hZl, hsh]
        rfl
      · intro q hq
        rw [hZl] at hq
        exact hJ q hq
    · refine ⟨[(b, v), (e, pA.2)], ?_,
        Or.inr (Or.inr ⟨pA.2, hpAv, ?_, Or.inr rfl⟩)⟩
      · rw [heq, hP, hZl, hsh]
        rfl
      · intro q hq
        rw [hZl] at hq
        exact hJ q hq

theorem dropWhile_eq_self_of_head {pred : K × V → Bool} {L : List (K × V)}
    (h : ∀ q, L.head? = some q → pred q = false) : L.dropWhile pred = L := by
  cases L with
  | nil => rfl
  | cons a t =>
      rw [List.dropWhile_cons, if_neg (by rw [h a rfl]; simp)]

theorem eraseKey_middle {X Y : List (K × V)} {kk : K} {x : V}
    (hX : ∀ p ∈ X, p.1 ≠ kk) (hY : ∀ p ∈ Y, p.1 ≠ kk) :
    eraseKey (X ++ (kk, x) :: Y) kk = X ++ Y := by
  rw [eraseKey, List.filter_append, List.filter_cons, if_neg (by simp)]
  rw [List.filter_eq_self.2 (fun p hp => by simpa using hX p hp),
    List.filter_eq_self.2 (fun p hp => by simpa using hY p hp)]

theorem insertPhase_eval {l L1 T l2 : List (K × V)} {b : K} {v : V}
    (hins : insertOrAssign l b v = L1)
    (hdw : L1.dropWhile (fun p => decide (p.1 ≤ b)) = T)
    (hl2 : (match T.head? with
          | some q => if q.2 = v then eraseKey L1 q.1 else L1
          | none => L1) = l2) :
    insertPhase l b v =
      match (l2.takeWhile (fun p => decide (p.1 < b))).getLast? with
      | some q => if q.2 = v then eraseKey l2 b else l2
      | none => l2 := by
  rw [insertPhase, hins, hdw, hl2]

theorem backward_distinct {P T : List (K × V)} {b : K} {v : V}
    (hPb : ∀ p ∈ P, p.1 < b)
    (hTb : ∀ p ∈ T, b < p.1)
    (hDP : List.Chain' (fun p q : K × V => p.2 ≠ q.2) P)
    (hDT : List.Chain' (fun p q : K × V => p.2 ≠ q.2) T)
    (hheadT : ∀ y, T.head? = some y → v ≠ y.2) :
    List.Chain' (fun p q : K × V => p.2 ≠ q.2)
      (match ((P ++ (b, v) :: T).takeWhile
          (fun p => decide (p.1 < b))).getLast? with
        | some q => if q.2 = v then eraseKey (P ++ (b, v) :: T) b
                    else P ++ (b, v) :: T
        | none => P ++ (b, v) :: T) := by
  have htw : (P ++ (b, v) :: T).takeWhile (fun p => decide (p.1 < b)) = P :=
    takeWhile_append_stop (fun p hp => decide_eq_true (hPb p hp)) (by simp)
  rw [htw]
  cases hg : P.getLast? with
  | none =>
      have hPnil : P = [] := by rwa [List.getLast?_eq_none_iff] at hg
      show List.Chain' _ (P ++ (b, v) :: T)
      rw [hPnil, List.nil_append]
      exact List.chain'_cons'.2 ⟨fun y hy => hheadT y hy, hDT⟩
  | some x =>
      show List.Chain' _ (if x.2 = v then eraseKey (P ++ (b, v) :: T) b
        else P ++ (b, v) :: T)
      by_cases hx : x.2 = v
      · rw [if_pos hx]
        have her : eraseKey (P ++ (b, v) :: T) b = P ++ T :=
          eraseKey_middle (fun p hp => ne_of_lt (hPb p hp))
            (fun p hp => (ne_of_lt (hTb p hp)).symm)
        rw [her, List.chain'_append]
        refine ⟨hDP, hDT, ?_⟩
        intro x2 hx2 y hy
        have hx2x : x = x2 := by
          rw [hg] at hx2
          simpa using hx2
        rw [← hx2x, hx]
        exact hheadT y hy
      · rw [if_neg hx]
        rw [List.chain'_append]
        refine ⟨hDP, List.chain'_cons'.2 ⟨fun y hy => hheadT y hy, hDT⟩, ?_⟩
        intro x2 hx2 y hy
        have hx2x : x = x2 := by
          rw [hg] at hx2
          simpa using hx2
        have hyb : (b, v) = y := by simpa using hy
        rw [← hx2x, ← hyb]
        exact hx

/-- The insertion/merge block keeps adjacent values pairwise distinct when run
on the output shape of the clearing block. -/
theorem insertPhase_distinct {l P mid Z : List (K × V)} {b e : K} {v : V}
    (hl : l = P ++ mid ++ Z)
    (hPb : ∀ p ∈ P, p.1 < b)
    (hZe : ∀ p ∈ Z, e < p.1)
    (hbe : b < e)
    (hsZ : keysSorted Z)
    (hDP : List.Chain' (fun p q : K × V => p.2 ≠ q.2) P)
    (hDZ : List.Chain' (fun p q : K × V => p.2 ≠ q.2) Z)
    (hshape : mid = [] ∨ mid = [(b, v)]
      ∨ (∃ w, w ≠ v ∧ (∀ q, Z.head? = some q → w ≠ q.2)
           ∧ (mid = [(e, w)] ∨ mid = [(b, v), (e, w)]))) :
    valuesDistinct (insertPhase l b v) := by
  have hZb : ∀ p ∈ Z, b < p.1 := fun p hp => lt_trans hbe (hZe p hp)
  -- step 1: the insertion always yields `P ++ (b, v) :: (E ++ Z)`
  obtain ⟨E, hEshape, hins⟩ : ∃ E,
      (E = [] ∨ ∃ w, w ≠ v ∧ (∀ q, Z.head? = some q → w ≠ q.2) ∧ E = [(e, w)]) ∧
      insertOrAssign l b v = P ++ (b, v) :: (E ++ Z) := by
    rcases hshape with hm | hm | ⟨w, hwv, hwZ, hm | hm⟩
    · refine ⟨[], Or.inl rfl, ?_⟩
      rw [hl, hm, List.append_nil]
      exact insertOrAssign_middle hPb hZb
    · refine ⟨[], Or.inl rfl, ?_⟩
      rw [hl, hm]
      rw [show P ++ [(b, v)] ++ Z = P ++ (b, v) :: Z by simp]
      exact insertOrAssign_replace hPb
    · refine ⟨[(e, w)], Or.inr ⟨w, hwv, hwZ, rfl⟩, ?_⟩
      rw [hl, hm]
      rw [show P ++ [(e, w)] ++ Z = P ++ (e, w) :: Z by simp]
      have hmem : ∀ p ∈ (e, w) :: Z, b < p.1 := by
        intro p hp
        rcases List.mem_cons.1 hp with rfl | hp
        · exact hbe
        · exact hZb p hp
      rw [insertOrAssign_middle (v := v) hPb hmem]
      rfl
    · refine ⟨[(e, w)], Or.inr ⟨w, hwv, hwZ, rfl⟩, ?_⟩
      rw [hl, hm]
      rw [show P ++ [(b, v), (e, w)] ++ Z = P ++ (b, v) :: (e, w) :: Z by simp]
      rw [insertOrAssign_replace (Y := (e, w) :: Z) (x := v) (v := v) hPb]
      rfl
  have hEb : ∀ p ∈ E ++ Z, b < p.1 := by
    intro p hp
    rcases List.mem_append.1 hp with hp | hp
    · rcases hEshape with h | ⟨w, _, _, h⟩
      · rw [h] at hp
        simp at hp
      · rw [h] at hp
        rw [List.mem_singleton.1 hp]
        exact hbe
    · exact hZb p hp
  -- step 2: the successor search skips the prefix and the inserted entry
  have hdw : (P ++ (b, v) :: (E ++ Z)).dropWhile (fun p => decide (p.1 ≤ b))
      = E ++ Z := by
    rw [dropWhile_append_of_all
      (fun p hp => decide_eq_true (le_of_lt (hPb p hp))),
      List.dropWhile_cons, if_pos (by simp)]
    exact dropWhile_eq_self_of_head
      (fun q hq =>
        decide_eq_false (not_le.2 (hEb q (List.mem_of_mem_head? hq))))
  rcases hEshape with hE | ⟨w, hwv, hwZ, hE⟩
  · -- no kept entry at keyEnd
    subst hE
    cases Z with
    | nil =>
        -- no successor at all: the source would dereference end() here
        have hl2 : (match (([] : List (K × V)) ++ ([] : List (K × V))).head? with
            | some q => if q.2 = v then eraseKey (P ++ (b, v) :: ([] ++ [])) q.1
                        else P ++ (b, v) :: ([] ++ [])
            | none => P ++ (b, v) :: ([] ++ [])) = P ++ (b, v) :: [] := rfl
        rw [insertPhase_eval hins hdw hl2]
        exact backward_distinct hPb (by simp) hDP List.chain'_nil (by simp)
    | cons z Zt =>
        by_cases hzv : z.2 = v
        · -- forward merge erases the first entry past the gap
          have hsZ' := hsZ
          rw [keysSorted, List.pairwise_cons] at hsZ'
          have hz1 : b < z.1 := hZb z (List.mem_cons_self _ _)
          have hl2 : (match (([] : List (K × V)) ++ (z :: Zt)).head? with
              | some q => if q.2 = v then
                  eraseKey (P ++ (b, v) :: ([] ++ z :: Zt)) q.1
                else P ++ (b, v) :: ([] ++ z :: Zt)
              | none => P ++ (b, v) :: ([] ++ z :: Zt))
              = P ++ (b, v) :: Zt := by
            show (if z.2 = v then eraseKey (P ++ (b, v) :: ([] ++ z :: Zt)) z.1
              else P ++ (b, v) :: ([] ++ z :: Zt)) = P ++ (b, v) :: Zt
            rw [if_pos hzv]
            have hX1 : ∀ p ∈ P ++ [(b, v)], p.1 ≠ z.1 := by
              intro p hp
              rcases List.mem_append.1 hp with hp | hp
              · exact ne_of_lt (lt_trans (hPb p hp) hz1)
              · rw [List.mem_singleton.1 hp]
                exact ne_of_lt hz1
            have hY1 : ∀ p ∈ Zt, p.1 ≠ z.1 :=
              fun p hp => (ne_of_lt (hsZ'.1 p hp)).symm
            have her := eraseKey_middle (x := z.2) hX1 hY1
            rw [show P ++ (b, v) :: ([] ++ z :: Zt)
              = (P ++ [(b, v)]) ++ (z.1, z.2) :: Zt by simp]
            rw [her]
            simp
          rw [insertPhase_eval hins hdw hl2]
          refine backward_distinct hPb
            (fun p hp => hZb p (List.mem_cons_of_mem _ hp)) hDP
            hDZ.tail ?_
          intro y hy
          have := (List.chain'_cons'.1 hDZ).1 y hy
          rw [← hzv]
          exact this
        · -- no merge: the successor keeps its different value
          have hl2 : (match (([] : List (K × V)) ++ (z :: Zt)).head? with
              | some q => if q.2 = v then
                  eraseKey (P ++ (b, v) :: ([] ++ z :: Zt)) q.1
                else P ++ (b, v) :: ([] ++ z :: Zt)
              | none => P ++ (b, v) :: ([] ++ z :: Zt))
              = P ++ (b, v) :: (z :: Zt) := by
            show (if z.2 = v then eraseKey (P ++ (b, v) :: ([] ++ z :: Zt)) z.1
              else P ++ (b, v) :: ([] ++ z :: Zt)) = P ++ (b, v) :: (z :: Zt)
            rw [if_neg hzv]
            rfl
          rw [insertPhase_eval hins hdw hl2]
          refine backward_distinct hPb hZb hDP hDZ ?_
          intro y hy
          have hyz : z = y := by simpa using hy
          rw [← hyz]
          exact fun hc => hzv hc.symm
  · -- kept entry `(e, w)` right after the inserted one; `w ≠ v`, no merge
    subst hE
    have hl2 : (match (([(e, w)] : List (K × V)) ++ Z).head? with
        | some q => if q.2 = v then
            eraseKey (P ++ (b, v) :: ([(e, w)] ++ Z)) q.1
          else P ++ (b, v) :: ([(e, w)] ++ Z)
        | none => P ++ (b, v) :: ([(e, w)] ++ Z))
        = P ++ (b, v) :: ((e, w) :: Z) := by
      show (if w = v then eraseKey (P ++ (b, v) :: ([(e, w)] ++ Z)) e
        else P ++ (b, v) :: ([(e, w)] ++ Z)) = P ++ (b, v) :: ((e, w) :: Z)
      rw [if_neg hwv]
      rfl
    rw [insertPhase_eval hins hdw hl2]
    refine backward_distinct hPb ?_ hDP ?_ ?_
    · intro p hp
      rcases List.mem_cons.1 hp with rfl | hp
      · exact hbe
      · exact hZb p hp
    · exact List.chain'_cons'.2 ⟨fun y hy => hwZ y hy, hDZ⟩
    · intro y hy
      have hye : (e, w) = y := by simpa using hy
      rw [← hye]
      exact fun hc => hwv hc.symm

/-! ### Full canonical-form invariant and claim C2 -/

theorem chain_take {R : K × V → K × V → Prop} {l : List (K × V)}
    {q : K × V → Bool} (h : List.Chain' R l) :
    List.Chain' R (l.takeWhile q) := by
  have h2 : l.takeWhile q ++ l.dropWhile q = l :=
    List.takeWhile_append_dropWhile _ _
  rw [← h2] at h
  exact (List.chain'_append.1 h).1

theorem chain_drop {R : K × V → K × V → Prop} {l : List (K × V)}
    {q : K × V → Bool} (h : List.Chain' R l) :
    List.Chain' R (l.dropWhile q) := by
  have h2 : l.takeWhile q ++ l.dropWhile q = l :=
    List.takeWhile_append_dropWhile _ _
  rw [← h2] at h
  exact (List.chain'_append.1 h).2.1

theorem valuesDistinct_finalPhase {valB : V} {lastKey : K} {l : List (K × V)}
    (hs : keysSorted l) (hD : valuesDistinct l)
    (hstrict : ∀ q, l.getLast? = some q → q.2 ≠ valB → q.1 < lastKey) :
    valuesDistinct (finalPhase valB lastKey l) := by
  rw [finalPhase.eq_def]
  cases hg : l.getLast? with
  | none => exact hD
  | some p =>
      show valuesDistinct (if p.2 = valB then l else insertOrAssign l lastKey valB)
      by_cases hp : p.2 = valB
      · rw [if_pos hp]
        exact hD
      · rw [if_neg hp]
        have hlt : ∀ q ∈ l, q.1 < lastKey :=
          fun q hq => lt_of_le_of_lt (le_of_mem_getLast hs hq hg) (hstrict p hg hp)
        have h1 : insertOrAssign l lastKey valB = l ++ [(lastKey, valB)] := by
          have h2 := insertOrAssign_middle (Y := ([] : List (K × V))) (v := valB)
            hlt (by simp)
          rw [List.append_nil] at h2
          exact h2
        rw [h1, valuesDistinct, List.chain'_append]
        refine ⟨hD, List.chain'_singleton _, ?_⟩
        intro x hx y hy
        have hx2 : p = x := by
          rw [hg] at hx
          simpa using hx
        have hy2 : (lastKey, valB) = y := by simpa using hy
        rw [← hx2, ← hy2]
        exact hp

/-- One `assign` keeps adjacent stored values pairwise distinct. -/
theorem valuesDistinct_assign {m : interval_map K V} (b e : K) (v : V)
    (hm : Inv m) (hD : valuesDistinct m.m_map) :
    valuesDistinct (m.assign b e v).m_map := by
  obtain ⟨hs, hT, hF⟩ := hm
  by_cases hbe : b < e
  · by_cases hnil : m.m_map = []
    · by_cases hv : v ≠ m.m_valBegin
      · have hmap2 : insertOrAssign (insertOrAssign ([] : List (K × V)) e m.m_valBegin) b v
            = [(b, v), (e, m.m_valBegin)] := by
          show insertOrAssign [(e, m.m_valBegin)] b v = _
          show (if b < e then (b, v) :: [(e, m.m_valBegin)]
            else if e < b then (e, m.m_valBegin) :: insertOrAssign [] b v
            else (b, v) :: []) = _
          rw [if_pos hbe]
        rw [interval_map.assign, if_neg (not_not_intro hbe), if_pos hnil,
          if_pos hv, hmap2]
        exact List.chain'_cons.2 ⟨hv, List.chain'_singleton _⟩
      · rw [interval_map.assign, if_neg (not_not_intro hbe), if_pos hnil, if_neg hv]
        exact hD
    · rw [assign_eq_main m b e v hbe hnil]
      obtain ⟨mid, hl1, hshape⟩ := clearPhase_shape (b := b) (e := e) (v := v) hs hD hbe
      have hPb : ∀ p ∈ m.m_map.takeWhile (fun p => decide (p.1 < b)), p.1 < b := by
        intro p hp
        have h2 := List.mem_takeWhile_imp hp
        exact of_decide_eq_true h2
      have hD2 : valuesDistinct (insertPhase (clearPhase m.m_map b e v) b v) :=
        insertPhase_distinct hl1 hPb (mem_dropWhile_key_gt hs e) hbe
          (List.Pairwise.sublist (List.dropWhile_suffix _).sublist hs)
          (chain_take hD) (chain_drop hD) hshape
      have hD3 : valuesDistinct (frontStrip m.m_valBegin
          (insertPhase (clearPhase m.m_map b e v) b v)) :=
        chain_drop hD2
      have hD4 : valuesDistinct (tailPhase m.m_valBegin (frontStrip m.m_valBegin
          (insertPhase (clearPhase m.m_map b e v) b v))) := by
        rcases tailPhase_cases m.m_valBegin (frontStrip m.m_valBegin
          (insertPhase (clearPhase m.m_map b e v) b v)) with hc | hc | hc <;> rw [hc]
        · exact hD3
        · exact List.Chain'.init hD3
        · exact List.chain'_nil
      have hs4 : keysSorted (tailPhase m.m_valBegin (frontStrip m.m_valBegin
          (insertPhase (clearPhase m.m_map b e v) b v))) :=
        List.Pairwise.sublist (tailPhase_sublist _ _)
          (List.Pairwise.sublist (frontStrip_sublist _ _)
            (keysSorted_insertPhase b v (keysSorted_clearPhase b e v hs)))
      by_cases h4 : tailPhase m.m_valBegin (frontStrip m.m_valBegin
          (insertPhase (clearPhase m.m_map b e v) b v)) = []
      · rw [if_pos h4, h4]
        exact List.chain'_nil
      · rw [if_neg h4]
        have hstrict : ∀ q, (tailPhase m.m_valBegin (frontStrip m.m_valBegin
            (insertPhase (clearPhase m.m_map b e v) b v))).getLast? = some q →
            q.2 ≠ m.m_valBegin → q.1 < lastKeyOf m e := by
          intro q hq hqv
          obtain ⟨r, hr⟩ : ∃ r, m.m_map.getLast? = some r := by
            cases hmm : m.m_map with
            | nil => exact absurd hmm hnil
            | cons a t =>
                exact ⟨(a :: t).getLast (by simp), List.getLast?_eq_getLast _ _⟩
          rcases mem_l4_cases (mem_of_getLast? hq) with hin | hb | ⟨he1, q2, hq2, hq2e⟩
          · rcases lt_or_eq_of_le (le_lastKeyOf_of_mem e hs hin) with h | h
            · exact h
            · exfalso
              by_cases hre : r.1 < e
              · have h1 : q.1 ≤ r.1 := le_of_mem_getLast hs hin hr
                have h2 : lastKeyOf m e = e := by
                  simp only [lastKeyOf, hr]
                  rw [if_pos hre]
                rw [h2] at h
                exact absurd (lt_of_le_of_lt h1 hre) (by rw [h]; exact lt_irrefl e)
              · have h2 : lastKeyOf m e = r.1 := by
                  simp only [lastKeyOf, hr]
                  rw [if_neg hre]
                rw [h2] at h
                have : q = r := eq_getLast_of_key_eq hs hin hr h
                rw [this] at hqv
                exact hqv (hT r hr)
          · rw [hb]
            exact lt_of_lt_of_le hbe (e_le_lastKeyOf m e)
          · rw [he1]
            have h2 : q2.1 ≤ r.1 := le_of_mem_getLast hs hq2 hr
            have her : e < r.1 := lt_of_lt_of_le hq2e h2
            have h3 : lastKeyOf m e = r.1 := by
              simp only [lastKeyOf, hr]
              rw [if_neg (not_lt.2 (le_of_lt her))]
            rw [h3]
            exact her
        exact valuesDistinct_finalPhase hs4 hD4 hstrict
  · rw [interval_map.assign, if_pos hbe]
    exact hD

/-- The full canonical-form invariant: the basic invariant plus pairwise
distinct adjacent values. -/
def FullInv (m : interval_map K V) : Prop :=
  Inv m ∧ valuesDistinct m.m_map

theorem fullinv_assign {m : interval_map K V} (b e : K) (v : V)
    (hm : FullInv m) : FullInv (m.assign b e v) :=
  ⟨inv_assign b e v hm.1, valuesDistinct_assign b e v hm.1 hm.2⟩

theorem reachable_fullinv {m : interval_map K V} (h : Reachable m) : FullInv m := by
  induction h with
  | ctor v => exact ⟨reachable_inv (Reachable.ctor v), List.chain'_nil⟩
  | step m b e v hm ih => exact fullinv_assign b e v ih

theorem chainDistinct_eq_true {w : V} {k0 : K} {rest : List (K × V)}
    (h : List.Chain' (fun p q : K × V => p.2 ≠ q.2) ((k0, w) :: rest)) :
    chainDistinct (K := K) w rest = true := by
  induction rest generalizing w k0 with
  | nil => rfl
  | cons a t ih =>
      obtain ⟨k2, w2⟩ := a
      show (if w2 = w then false else chainDistinct (K := K) w2 t) = true
      have h1 : w ≠ w2 := (List.chain'_cons.1 h).1
      rw [if_neg (fun hc => h1 hc.symm)]
      exact ih (List.chain'_cons.1 h).2

theorem is_canonical_of_distinct {m : interval_map K V}
    (hF : headNotDefault m) (hD : valuesDistinct m.m_map) :
    m.is_canonical = true := by
  rw [interval_map.is_canonical.eq_def]
  cases hmm : m.m_map with
  | nil => rfl
  | cons a rest =>
      obtain ⟨k0, w⟩ := a
      show (if w = m.m_valBegin then false else chainDistinct (K := K) w rest) = true
      rw [if_neg (hF (k0, w) (by rw [hmm]; rfl))]
      have hD2 : List.Chain' (fun p q : K × V => p.2 ≠ q.2) ((k0, w) :: rest) := by
        rw [← hmm]
        exact hD
      exact chainDistinct_eq_true hD2

/-- C2: canonicity preservation: every map reachable from a freshly
constructed (canonical) map by any sequence of `assign` calls satisfies
`is_canonical`: its first stored entry (if any) differs from the default
value and no two consecutive stored entries hold equal values. -/
theorem assign_preserves_canonical {m : interval_map K V} (h : Reachable m) :
    m.is_canonical = true :=
  is_canonical_of_distinct (reachable_fullinv h).1.2.2 (reachable_fullinv h).2

theorem assign_preserves_canonical_witness :
    Reachable ((interval_map.ctor 'A').assign (0 : Int) 5 'B')
      ∧ ((interval_map.ctor 'A').assign (0 : Int) 5 'B').is_canonical = true :=
  ⟨Reachable.step (interval_map.ctor 'A') 0 5 'B' (Reachable.ctor 'A'),
   assign_preserves_canonical
     (Reachable.step (interval_map.ctor 'A') 0 5 'B' (Reachable.ctor 'A'))⟩

/-! ### Idempotence of `assign` (claim C7) -/

theorem frontStrip_eq_self {valB : V} {l : List (K × V)}
    (hhead : ∀ q, l.head? = some q → q.2 ≠ valB) :
    frontStrip valB l = l :=
  dropWhile_eq_self_of_head (fun q hq => decide_eq_false (hhead q hq))

theorem tailPhase_eq_self {valB : V} {l : List (K × V)}
    (hhead : ∀ q, l.head? = some q → q.2 ≠ valB)
    (hD : valuesDistinct l) :
    tailPhase valB l = l := by
  cases hg : l.getLast? with
  | none => simp only [tailPhase, hg]
  | some p =>
      by_cases h1 : p.2 = valB
      · have hlne : l ≠ [] := by
          intro hc
          rw [hc] at hg
          simp at hg
        have h2 : 1 < l.length := by
          rcases Nat.lt_or_ge 1 l.length with h | h
          · exact h
          · exfalso
            rcases Nat.le_one_iff_eq_zero_or_eq_one.1 h with h0 | hone
            · exact hlne (List.length_eq_zero.1 h0)
            · obtain ⟨a, ha⟩ := List.length_eq_one.1 hone
              rw [ha] at hg
              have hap : a = p := by simpa using hg
              exact hhead p (by rw [ha, hap]; rfl) h1
        cases hgd : l.dropLast.getLast? with
        | none =>
            simp only [tailPhase, hg]
            rw [if_pos h1, if_pos h2]
            simp only [hgd]
        | some q =>
            have hdecomp : l.dropLast ++ [p] = l :=
              List.dropLast_append_getLast? p hg
            have hD2 : List.Chain' (fun p q : K × V => p.2 ≠ q.2)
                (l.dropLast ++ [p]) := by
              rw [hdecomp]
              exact hD
            have h3 : q.2 ≠ valB := by
              have hj := (List.chain'_append.1 hD2).2.2 q hgd p rfl
              rw [← h1]
              exact hj
            simp only [tailPhase, hg]
            rw [if_pos h1, if_pos h2]
            simp only [hgd]
            rw [if_neg h3]
      · simp only [tailPhase, hg]
        rw [if_neg h1]

theorem finalPhase_eq_self {valB : V} {lastKey : K} {l : List (K × V)}
    (hlast : ∀ q, l.getLast? = some q → q.2 = valB) :
    finalPhase valB lastKey l = l := by
  rw [finalPhase.eq_def]
  cases hg : l.getLast? with
  | none => rfl
  | some p =>
      show (if p.2 = valB then l else insertOrAssign l lastKey valB) = l
      rw [if_pos (hlast p hg)]

theorem clearLoop_fix {b e : K} {v : V} {T : List (K × V)} (hbe : b < e)
    (hTe : ∀ p ∈ T, e ≤ p.1)
    (hThead : ∀ q, T.head? = some q → q.2 ≠ v) :
    clearLoop b e v T = (none, []) := by
  cases T with
  | nil => rfl
  | cons a rest =>
      obtain ⟨k, w⟩ := a
      have hek : e ≤ k := hTe (k, w) (List.mem_cons_self _ _)
      have hwv : w ≠ v := hThead (k, w) rfl
      rw [clearLoop_cons, if_neg (not_lt.2 hek)]
      rcases lt_or_eq_of_le hek with h | h
      · exact clearStep_gt h hbe
      · rw [← h]
        exact clearStep_at_e_noval hbe hwv

theorem clearLoop_fix_b {b e : K} {v : V} {T : List (K × V)} (hbe : b < e)
    (hTe : ∀ p ∈ T, e ≤ p.1)
    (hThead : ∀ q, T.head? = some q → q.2 ≠ v) :
    clearLoop b e v ((b, v) :: T) = (none, []) := by
  rw [clearLoop_cons, if_pos hbe, clearLoop_fix hbe hTe hThead,
    clearStep_b_self hThead]
  rfl

theorem backward_form {P T : List (K × V)} {b : K} {v : V}
    (hPb : ∀ p ∈ P, p.1 < b) (hTb : ∀ p ∈ T, b < p.1) :
    (match ((P ++ (b, v) :: T).takeWhile
        (fun p => decide (p.1 < b))).getLast? with
      | some q => if q.2 = v then eraseKey (P ++ (b, v) :: T) b
                  else P ++ (b, v) :: T
      | none => P ++ (b, v) :: T)
    = (match P.getLast? with
      | some x => if x.2 = v then P ++ T else P ++ (b, v) :: T
      | none => P ++ (b, v) :: T) := by
  have htw : (P ++ (b, v) :: T).takeWhile (fun p => decide (p.1 < b)) = P :=
    takeWhile_append_stop (fun p hp => decide_eq_true (hPb p hp)) (by simp)
  rw [htw]
  cases hg : P.getLast? with
  | none => rfl
  | some x =>
      show (if x.2 = v then eraseKey (P ++ (b, v) :: T) b else P ++ (b, v) :: T)
        = (if x.2 = v then P ++ T else P ++ (b, v) :: T)
      by_cases hx : x.2 = v
      · rw [if_pos hx, if_pos hx,
          eraseKey_middle (fun p hp => ne_of_lt (hPb p hp))
            (fun p hp => (ne_of_lt (hTb p hp)).symm)]
      · rw [if_neg hx, if_neg hx]

theorem head?_takeWhile {l : List (K × V)} {q : K × V → Bool} {a : K × V}
    {t : List (K × V)} (h : l.takeWhile q = a :: t) : l.head? = some a := by
  cases l with
  | nil => simp at h
  | cons x s =>
      rw [List.takeWhile_cons] at h
      by_cases hq : q x = true
      · rw [if_pos hq] at h
        injection h with h1 h2
        rw [h1]
        rfl
      · rw [if_neg hq] at h
        simp at h

theorem assign_valBegin (m : interval_map K V) (b e : K) (v : V) :
    (m.assign b e v).m_valBegin = m.m_valBegin := by
  by_cases hbe : b < e
  · by_cases hnil : m.m_map = []
    · rw [interval_map.assign, if_neg (not_not_intro hbe), if_pos hnil]
      by_cases hv : v ≠ m.m_valBegin
      · rw [if_pos hv]
      · rw [if_neg hv]
    · rw [assign_eq_main m b e v hbe hnil]
      by_cases hc : tailPhase m.m_valBegin (frontStrip m.m_valBegin
          (insertPhase (clearPhase m.m_map b e v) b v)) = []
      · rw [if_pos hc]
      · rw [if_neg hc]
  · rw [interval_map.assign, if_pos hbe]

/-- The shape of a boundary store on which assigning `v` over `[b, e)` is a
no-op: keys below `b`, then either an entry `(b, v)` or nothing (with `v`
already the value in force entering `b`), then keys at or above `e` whose
first value differs from `v`. -/
def FixShape (valB : V) (M : List (K × V)) (b e : K) (v : V) : Prop :=
  ∃ P T, (∀ p ∈ P, p.1 < b) ∧ (∀ p ∈ T, e ≤ p.1) ∧
    (∀ q, T.head? = some q → q.2 ≠ v) ∧
    (M = P ++ (b, v) :: T ∨
      (M = P ++ T ∧ (match P.getLast? with
        | some x => x.2 = v
        | none => v = valB)))

/-- On a well-formed store of the fixpoint shape, `assign` changes nothing. -/
theorem assign_fixpoint {m : interval_map K V} {b e : K} {v : V}
    (hbe : b < e) (hInv : Inv m) (hD : valuesDistinct m.m_map)
    (hfix : FixShape m.m_valBegin m.m_map b e v) :
    m.assign b e v = m := by
  obtain ⟨hs, hT, hF⟩ := hInv
  obtain ⟨P, T, hPb, hTe, hThead, hform⟩ := hfix
  have hTb : ∀ p ∈ T, b < p.1 := fun p hp => lt_of_lt_of_le hbe (hTe p hp)
  by_cases hMnil : m.m_map = []
  · have hvB : v = m.m_valBegin := by
      rcases hform with h | ⟨h1, h2⟩
      · rw [hMnil] at h
        exact absurd h.symm (by simp)
      · rw [hMnil] at h1
        have hP0 : P = [] := (List.append_eq_nil.1 h1.symm).1
        rw [hP0] at h2
        exact h2
    rw [interval_map.assign, if_neg (not_not_intro hbe), if_pos hMnil,
      if_neg (not_not_intro hvB)]
  · rw [assign_eq_main m b e v hbe hMnil]
    rcases hform with hM | ⟨hM, hforce⟩
    · -- the store already holds the entry `(b, v)`
      have hdrop : m.m_map.dropWhile (fun p => decide (p.1 < b)) = (b, v) :: T := by
        rw [hM, dropWhile_append_of_all (fun p hp => decide_eq_true (hPb p hp)),
          List.dropWhile_cons, if_neg (by simp)]
      have h1 : clearPhase m.m_map b e v = m.m_map := by
        rw [clearPhase_unfold, hdrop, clearLoop_fix_b hbe hTe hThead]
        rfl
      have hins : insertOrAssign m.m_map b v = P ++ (b, v) :: T := by
        rw [hM]
        exact insertOrAssign_replace (x := v) (v := v) hPb
      have hdw : (P ++ (b, v) :: T).dropWhile (fun p => decide (p.1 ≤ b)) = T := by
        rw [dropWhile_append_of_all
            (fun p hp => decide_eq_true (le_of_lt (hPb p hp))),
          List.dropWhile_cons, if_pos (by simp)]
        exact dropWhile_eq_self_of_head
          (fun q hq => decide_eq_false (not_le.2 (hTb q (List.mem_of_mem_head? hq))))
      have hl2 : (match T.head? with
          | some q => if q.2 = v then eraseKey (P ++ (b, v) :: T) q.1
                      else P ++ (b, v) :: T
          | none => P ++ (b, v) :: T) = P ++ (b, v) :: T := by
        cases hTc : T with
        | nil => rfl
        | cons z T2 =>
            show (if z.2 = v then eraseKey (P ++ (b, v) :: z :: T2) z.1
              else P ++ (b, v) :: z :: T2) = P ++ (b, v) :: z :: T2
            rw [if_neg (hThead z (by rw [hTc]; rfl))]
      have h2 : insertPhase m.m_map b v = m.m_map := by
        rw [insertPhase_eval hins hdw hl2, backward_form hPb hTb, hM]
        cases hg : P.getLast? with
        | none => rfl
        | some x =>
            show (if x.2 = v then P ++ T else P ++ (b, v) :: T) = P ++ (b, v) :: T
            refine if_neg ?_
            have hD2 : List.Chain' (fun p q : K × V => p.2 ≠ q.2)
                (P ++ (b, v) :: T) := by
              rw [← hM]
              exact hD
            intro hc
            exact (List.chain'_append.1 hD2).2.2 x hg (b, v) rfl hc
      rw [h1, h2, frontStrip_eq_self (fun q hq => hF q hq),
        tailPhase_eq_self (fun q hq => hF q hq) hD, if_neg hMnil,
        finalPhase_eq_self (fun q hq => hT q hq)]
    · -- no entry at `b`: the value in force entering `b` is already `v`
      have hdrop : m.m_map.dropWhile (fun p => decide (p.1 < b)) = T := by
        rw [hM, dropWhile_append_of_all (fun p hp => decide_eq_true (hPb p hp))]
        exact dropWhile_eq_self_of_head
          (fun q hq => decide_eq_false
            (not_lt.2 (le_of_lt (hTb q (List.mem_of_mem_head? hq)))))
      have h1 : clearPhase m.m_map b e v = m.m_map := by
        rw [clearPhase_unfold, hdrop, clearLoop_fix hbe hTe hThead]
        rfl
      have hins : insertOrAssign m.m_map b v = P ++ (b, v) :: T := by
        rw [hM]
        exact insertOrAssign_middle hPb hTb
      have hdw : (P ++ (b, v) :: T).dropWhile (fun p => decide (p.1 ≤ b)) = T := by
        rw [dropWhile_append_of_all
            (fun p hp => decide_eq_true (le_of_lt (hPb p hp))),
          List.dropWhile_cons, if_pos (by simp)]
        exact dropWhile_eq_self_of_head
          (fun q hq => decide_eq_false (not_le.2 (hTb q (List.mem_of_mem_head? hq))))
      have hl2 : (match T.head? with
          | some q => if q.2 = v then eraseKey (P ++ (b, v) :: T) q.1
                      else P ++ (b, v) :: T
          | none => P ++ (b, v) :: T) = P ++ (b, v) :: T := by
        cases hTc : T with
        | nil => rfl
        | cons z T2 =>
            show (if z.2 = v then eraseKey (P ++ (b, v) :: z :: T2) z.1
              else P ++ (b, v) :: z :: T2) = P ++ (b, v) :: z :: T2
            rw [if_neg (hThead z (by rw [hTc]; rfl))]
      cases hgP : P.getLast? with
      | some x =>
          have hxv : x.2 = v := by
            have h3 := hforce
            rw [hgP] at h3
            exact h3
          have h2 : insertPhase m.m_map b v = m.m_map := by
            rw [insertPhase_eval hins hdw hl2, backward_form hPb hTb, hgP, hM]
            show (if x.2 = v then P ++ T else P ++ (b, v) :: T) = P ++ T
            rw [if_pos hxv]
          rw [h1, h2, frontStrip_eq_self (fun q hq => hF q hq),
            tailPhase_eq_self (fun q hq => hF q hq) hD, if_neg hMnil,
            finalPhase_eq_self (fun q hq => hT q hq)]
      | none =>
          have hP0 : P = [] := by rwa [List.getLast?_eq_none_iff] at hgP
          have hvB : v = m.m_valBegin := by
            have h3 := hforce
            rw [hgP] at h3
            exact h3
          have hMT : m.m_map = T := by
            rw [hM, hP0, List.nil_append]
          have h2 : insertPhase m.m_map b v = (b, v) :: T := by
            rw [insertPhase_eval hins hdw hl2, backward_form hPb hTb, hgP, hP0]
            rfl
          have h3 : frontStrip m.m_valBegin ((b, v) :: T) = T := by
            show ((b, v) :: T).dropWhile (fun p => decide (p.2 = m.m_valBegin)) = T
            rw [List.dropWhile_cons, if_pos (by rw [hvB]; simp)]
            exact dropWhile_eq_self_of_head
              (fun q hq => decide_eq_false (hF q (by rw [hMT]; exact hq)))
          rw [h1, h2, h3, ← hMT,
            tailPhase_eq_self (fun q hq => hF q hq) hD, if_neg hMnil,
            finalPhase_eq_self (fun q hq => hT q hq)]

theorem backward_form_cases {P T : List (K × V)} {b : K} {v : V} :
    (match P.getLast? with
      | some x => if x.2 = v then P ++ T else P ++ (b, v) :: T
      | none => P ++ (b, v) :: T) = P ++ (b, v) :: T ∨
    (∃ x, P.getLast? = some x ∧ x.2 = v ∧
      (match P.getLast? with
        | some x => if x.2 = v then P ++ T else P ++ (b, v) :: T
        | none => P ++ (b, v) :: T) = P ++ T) := by
  cases hg : P.getLast? with
  | none => exact Or.inl rfl
  | some x =>
      by_cases hx : x.2 = v
      · refine Or.inr ⟨x, rfl, hx, ?_⟩
        show (if x.2 = v then P ++ T else P ++ (b, v) :: T) = P ++ T
        rw [if_pos hx]
      · refine Or.inl ?_
        show (if x.2 = v then P ++ T else P ++ (b, v) :: T) = P ++ (b, v) :: T
        rw [if_neg hx]

/-- The insertion/merge block output decomposes as the untouched prefix, the
inserted entry when it survives the backward merge, and a tail at or past
`keyEnd` whose first value differs from the assigned value. -/
theorem insertPhase_form {l P mid Z : List (K × V)} {b e : K} {v : V}
    (hl : l = P ++ mid ++ Z)
    (hPb : ∀ p ∈ P, p.1 < b)
    (hZe : ∀ p ∈ Z, e < p.1)
    (hbe : b < e)
    (hsZ : keysSorted Z)
    (hDZ : List.Chain' (fun p q : K × V => p.2 ≠ q.2) Z)
    (hshape : mid = [] ∨ mid = [(b, v)]
      ∨ (∃ w, w ≠ v ∧ (∀ q, Z.head? = some q → w ≠ q.2)
           ∧ (mid = [(e, w)] ∨ mid = [(b, v), (e, w)]))) :
    ∃ T, (∀ p ∈ T, e ≤ p.1) ∧ (∀ q, T.head? = some q → q.2 ≠ v) ∧
      (insertPhase l b v = P ++ (b, v) :: T ∨
        (∃ x, P.getLast? = some x ∧ x.2 = v ∧ insertPhase l b v = P ++ T)) := by
  have hZb : ∀ p ∈ Z, b < p.1 := fun p hp => lt_trans hbe (hZe p hp)
  obtain ⟨E, hEshape, hins⟩ : ∃ E,
      (E = [] ∨ ∃ w, w ≠ v ∧ (∀ q, Z.head? = some q → w ≠ q.2) ∧ E = [(e, w)]) ∧
      insertOrAssign l b v = P ++ (b, v) :: (E ++ Z) := by
    rcases hshape with hm | hm | ⟨w, hwv, hwZ, hm | hm⟩
    · refine ⟨[], Or.inl rfl, ?_⟩
      rw [hl, hm, List.append_nil]
      exact insertOrAssign_middle hPb hZb
    · refine ⟨[], Or.inl rfl, ?_⟩
      rw [hl, hm]
      rw [show P ++ [(b, v)] ++ Z = P ++ (b, v) :: Z by simp]
      exact insertOrAssign_replace hPb
    · refine ⟨[(e, w)], Or.inr ⟨w, hwv, hwZ, rfl⟩, ?_⟩
      rw [hl, hm]
      rw [show P ++ [(e, w)] ++ Z = P ++ (e, w) :: Z by simp]
      have hmem : ∀ p ∈ (e, w) :: Z, b < p.1 := by
        intro p hp
        rcases List.mem_cons.1 hp with rfl | hp
        · exact hbe
        · exact hZb p hp
      rw [insertOrAssign_middle (v := v) hPb hmem]
      rfl
    · refine ⟨[(e, w)], Or.inr ⟨w, hwv, hwZ, rfl⟩, ?_⟩
      rw [hl, hm]
      rw [show P ++ [(b, v), (e, w)] ++ Z = P ++ (b, v) :: (e, w) :: Z by simp]
      rw [insertOrAssign_replace (Y := (e, w) :: Z) (x := v) (v := v) hPb]
      rfl
  have hEb : ∀ p ∈ E ++ Z, b < p.1 := by
    intro p hp
    rcases List.mem_append.1 hp with hp | hp
    · rcases hEshape with h | ⟨w, _, _, h⟩
      · rw [h] at hp
        simp at hp
      · rw [h] at hp
        rw [List.mem_singleton.1 hp]
        exact hbe
    · exact hZb p hp
  have hdw : (P ++ (b, v) :: (E ++ Z)).dropWhile (fun p => decide (p.1 ≤ b))
      = E ++ Z := by
    rw [dropWhile_append_of_all
      (fun p hp => decide_eq_true (le_of_lt (hPb p hp))),
      List.dropWhile_cons, if_pos (by simp)]
    exact dropWhile_eq_self_of_head
      (fun q hq =>
        decide_eq_false (not_le.2 (hEb q (List.mem_of_mem_head? hq))))
  rcases hEshape with hE | ⟨w, hwv, hwZ, hE⟩
  · subst hE
    cases Z with
    | nil =>
        have hl2 : (match (([] : List (K × V)) ++ ([] : List (K × V))).head? with
            | some q => if q.2 = v then eraseKey (P ++ (b, v) :: ([] ++ [])) q.1
                        else P ++ (b, v) :: ([] ++ [])
            | none => P ++ (b, v) :: ([] ++ [])) = P ++ (b, v) :: [] := rfl
        refine ⟨[], by simp, by simp, ?_⟩
        rw [insertPhase_eval hins hdw hl2, backward_form hPb (by simp)]
        exact backward_form_cases
    | cons z Zt =>
        by_cases hzv : z.2 = v
        · have hsZ' := hsZ
          rw [keysSorted, List.pairwise_cons] at hsZ'
          have hz1 : b < z.1 := hZb z (List.mem_cons_self _ _)
          have hl2 : (match (([] : List (K × V)) ++ (z :: Zt)).head? with
              | some q => if q.2 = v then
                  eraseKey (P ++ (b, v) :: ([] ++ z :: Zt)) q.1
                else P ++ (b, v) :: ([] ++ z :: Zt)
              | none => P ++ (b, v) :: ([] ++ z :: Zt))
              = P ++ (b, v) :: Zt := by
            show (if z.2 = v then eraseKey (P ++ (b, v) :: ([] ++ z :: Zt)) z.1
              else P ++ (b, v) :: ([] ++ z :: Zt)) = P ++ (b, v) :: Zt
            rw [if_pos hzv]
            have hX1 : ∀ p ∈ P ++ [(b, v)], p.1 ≠ z.1 := by
              intro p hp
              rcases List.mem_append.1 hp with hp | hp
              · exact ne_of_lt (lt_trans (hPb p hp) hz1)
              · rw [List.mem_singleton.1 hp]
                exact ne_of_lt hz1
            have hY1 : ∀ p ∈ Zt, p.1 ≠ z.1 :=
              fun p hp => (ne_of_lt (hsZ'.1 p hp)).symm
            have her := eraseKey_middle (x := z.2) hX1 hY1
            rw [show P ++ (b, v) :: ([] ++ z :: Zt)
              = (P ++ [(b, v)]) ++ (z.1, z.2) :: Zt by simp]
            rw [her]
            simp
          refine ⟨Zt, ?_, ?_, ?_⟩
          · intro p hp
            exact le_of_lt (hZe p (List.mem_cons_of_mem _ hp))
          · intro q hq
            have h5 := (List.chain'_cons'.1 hDZ).1 q hq
            intro hc
            exact h5 (hzv.trans hc.symm)
          · rw [insertPhase_eval hins hdw hl2,
              backward_form hPb (fun p hp => hZb p (List.mem_cons_of_mem _ hp))]
            exact backward_form_cases
        · have hl2 : (match (([] : List (K × V)) ++ (z :: Zt)).head? with
              | some q => if q.2 = v then
                  eraseKey (P ++ (b, v) :: ([] ++ z :: Zt)) q.1
                else P ++ (b, v) :: ([] ++ z :: Zt)
              | none => P ++ (b, v) :: ([] ++ z :: Zt))
              = P ++ (b, v) :: (z :: Zt) := by
            show (if z.2 = v then eraseKey (P ++ (b, v) :: ([] ++ z :: Zt)) z.1
              else P ++ (b, v) :: ([] ++ z :: Zt)) = P ++ (b, v) :: (z :: Zt)
            rw [if_neg hzv]
            rfl
          refine ⟨z :: Zt, ?_, ?_, ?_⟩
          · intro p hp
            exact le_of_lt (hZe p hp)
          · intro q hq
            have h6 : z = q := by simpa using hq
            rw [← h6]
            exact hzv
          · rw [insertPhase_eval hins hdw hl2, backward_form hPb hZb]
            exact backward_form_cases
  · subst hE
    have hl2 : (match (([(e, w)] : List (K × V)) ++ Z).head? with
        | some q => if q.2 = v then
            eraseKey (P ++ (b, v) :: ([(e, w)] ++ Z)) q.1
          else P ++ (b, v) :: ([(e, w)] ++ Z)
        | none => P ++ (b, v) :: ([(e, w)] ++ Z))
        = P ++ (b, v) :: ((e, w) :: Z) := by
      show (if w = v then eraseKey (P ++ (b, v) :: ([(e, w)] ++ Z)) e
        else P ++ (b, v) :: ([(e, w)] ++ Z)) = P ++ (b, v) :: ((e, w) :: Z)
      rw [if_neg hwv]
      rfl
    have hTb2 : ∀ p ∈ (e, w) :: Z, b < p.1 := by
      intro p hp
      rcases List.mem_cons.1 hp with rfl | hp
      · exact hbe
      · exact hZb p hp
    refine ⟨(e, w) :: Z, ?_, ?_, ?_⟩
    · intro p hp
      rcases List.mem_cons.1 hp with rfl | hp
      · exact le_refl e
      · exact le_of_lt (hZe p hp)
    · intro q hq
      have h6 : (e, w) = q := by simpa using hq
      rw [← h6]
      exact hwv
    · rw [insertPhase_eval hins hdw hl2, backward_form hPb hTb2]
      exact backward_form_cases

/-- The last entry of the canonicalized store is strictly below `last_key`
whenever its value is not the default. -/
theorem l4_strict {m : interval_map K V} (b e : K) (v : V)
    (hs : keysSorted m.m_map) (hT : lastIsDefault m) (hnil : m.m_map ≠ [])
    (hbe : b < e) :
    ∀ q, (tailPhase m.m_valBegin (frontStrip m.m_valBegin
        (insertPhase (clearPhase m.m_map b e v) b v))).getLast? = some q →
      q.2 ≠ m.m_valBegin → q.1 < lastKeyOf m e := by
  intro q hq hqv
  obtain ⟨r, hr⟩ : ∃ r, m.m_map.getLast? = some r := by
    cases hmm : m.m_map with
    | nil => exact absurd hmm hnil
    | cons a t =>
        exact ⟨(a :: t).getLast (by simp), List.getLast?_eq_getLast _ _⟩
  rcases mem_l4_cases (mem_of_getLast? hq) with hin | hb | ⟨he1, q2, hq2, hq2e⟩
  · rcases lt_or_eq_of_le (le_lastKeyOf_of_mem e hs hin) with h | h
    · exact h
    · exfalso
      by_cases hre : r.1 < e
      · have h1 : q.1 ≤ r.1 := le_of_mem_getLast hs hin hr
        have h2 : lastKeyOf m e = e := by
          simp only [lastKeyOf, hr]
          rw [if_pos hre]
        rw [h2] at h
        exact absurd (lt_of_le_of_lt h1 hre) (by rw [h]; exact lt_irrefl e)
      · have h2 : lastKeyOf m e = r.1 := by
          simp only [lastKeyOf, hr]
          rw [if_neg hre]
        rw [h2] at h
        have : q = r := eq_getLast_of_key_eq hs hin hr h
        rw [this] at hqv
        exact hqv (hT r hr)
  · rw [hb]
    exact lt_of_lt_of_le hbe (e_le_lastKeyOf m e)
  · rw [he1]
    have h2 : q2.1 ≤ r.1 := le_of_mem_getLast hs hq2 hr
    have her : e < r.1 := lt_of_lt_of_le hq2e h2
    have h3 : lastKeyOf m e = r.1 := by
      simp only [lastKeyOf, hr]
      rw [if_neg (not_lt.2 (le_of_lt her))]
    rw [h3]
    exact her

/-- The final default-restoring write preserves the fixpoint shape. -/
theorem fixShape_finalPhase {valB : V} {lastKey : K} {l3 : List (K × V)}
    {b e : K} {v : V}
    (hne : l3 ≠ []) (hs3 : keysSorted l3)
    (hstrict : ∀ q, l3.getLast? = some q → q.2 ≠ valB → q.1 < lastKey)
    (helk : e ≤ lastKey)
    (hfix : FixShape valB l3 b e v) :
    FixShape valB (finalPhase valB lastKey l3) b e v := by
  obtain ⟨P, T, hPb, hTe, hThead, hform⟩ := hfix
  cases hgl : l3.getLast? with
  | none =>
      rw [List.getLast?_eq_none_iff] at hgl
      exact absurd hgl hne
  | some p3 =>
      by_cases hp3 : p3.2 = valB
      · have hfin : finalPhase valB lastKey l3 = l3 := by
          rw [finalPhase.eq_def, hgl]
          show (if p3.2 = valB then l3 else insertOrAssign l3 lastKey valB) = l3
          rw [if_pos hp3]
        rw [hfin]
        exact ⟨P, T, hPb, hTe, hThead, hform⟩
      · have hlt3 : ∀ p ∈ l3, p.1 < lastKey :=
          fun p hp => lt_of_le_of_lt (le_of_mem_getLast hs3 hp hgl)
            (hstrict p3 hgl hp3)
        have hfin : finalPhase valB lastKey l3 = l3 ++ [(lastKey, valB)] := by
          rw [finalPhase.eq_def, hgl]
          show (if p3.2 = valB then l3 else insertOrAssign l3 lastKey valB) = _
          rw [if_neg hp3]
          have h7 := insertOrAssign_middle (Y := ([] : List (K × V)))
            (v := valB) hlt3 (by simp)
          rw [List.append_nil] at h7
          exact h7
        rw [hfin]
        have hTe2 : ∀ p ∈ T ++ [(lastKey, valB)], e ≤ p.1 := by
          intro p hp
          rcases List.mem_append.1 hp with hp | hp
          · exact hTe p hp
          · rw [List.mem_singleton.1 hp]
            exact helk
        rcases hform with hM | ⟨hM, hforce⟩
        · refine ⟨P, T ++ [(lastKey, valB)], hPb, hTe2, ?_, Or.inl ?_⟩
          · intro q hq
            cases hTc : T with
            | nil =>
                rw [hTc] at hq
                have h6 : (lastKey, valB) = q := by simpa using hq
                have hp3v : p3 = (b, v) := by
                  have h8 : l3.getLast? = some (b, v) := by
                    rw [hM, hTc]
                    exact List.getLast?_concat _
                  rw [hgl] at h8
                  exact Option.some.inj h8
                rw [← h6]
                intro hc
                rw [hp3v] at hp3
                exact hp3 hc.symm
            | cons z T2 =>
                rw [hTc] at hq
                have h6 : z = q := by simpa using hq
                rw [← h6]
                exact hThead z (by rw [hTc]; rfl)
          · rw [hM]
            simp [List.append_assoc]
        · refine ⟨P, T ++ [(lastKey, valB)], hPb, hTe2, ?_, Or.inr ⟨?_, hforce⟩⟩
          · intro q hq
            cases hTc : T with
            | nil =>
                rw [hTc] at hq
                have h6 : (lastKey, valB) = q := by simpa using hq
                have h8 : l3.getLast? = P.getLast? := by
                  rw [hM, hTc, List.append_nil]
                have h9 : P.getLast? = some p3 := by
                  rw [← h8]
                  exact hgl
                have hxv : p3.2 = v := by
                  have h10 := hforce
                  rw [h9] at h10
                  exact h10
                rw [← h6]
                intro hc
                exact hp3 (hxv.trans hc.symm)
            | cons z T2 =>
                rw [hTc] at hq
                have h6 : z = q := by simpa using hq
                rw [← h6]
                exact hThead z (by rw [hTc]; rfl)
          · rw [hM]
            simp [List.append_assoc]

/-- After one `assign` over a nondegenerate range, the resulting store has the
fixpoint shape for the same arguments. -/
theorem assign_shape {m : interval_map K V} {b e : K} {v : V}
    (hFI : FullInv m) (hbe : b < e) :
    FixShape m.m_valBegin (m.assign b e v).m_map b e v := by
  obtain ⟨⟨hs, hT, hF⟩, hD⟩ := hFI
  by_cases hnil : m.m_map = []
  · by_cases hv : v ≠ m.m_valBegin
    · have hmap2 : insertOrAssign (insertOrAssign ([] : List (K × V)) e m.m_valBegin) b v
          = [(b, v), (e, m.m_valBegin)] := by
        show insertOrAssign [(e, m.m_valBegin)] b v = _
        show (if b < e then (b, v) :: [(e, m.m_valBegin)]
          else if e < b then (e, m.m_valBegin) :: insertOrAssign [] b v
          else (b, v) :: []) = _
        rw [if_pos hbe]
      have heq : m.assign b e v = ⟨m.m_valBegin, [(b, v), (e, m.m_valBegin)]⟩ := by
        rw [interval_map.assign, if_neg (not_not_intro hbe), if_pos hnil,
          if_pos hv, hmap2]
      rw [heq]
      refine ⟨[], [(e, m.m_valBegin)], by simp, ?_, ?_, Or.inl rfl⟩
      · intro p hp
        rw [List.mem_singleton.1 hp]
      · intro q hq
        have h2 : (e, m.m_valBegin) = q := by simpa using hq
        rw [← h2]
        exact fun hc => hv hc.symm
    · have heq : m.assign b e v = m := by
        rw [interval_map.assign, if_neg (not_not_intro hbe), if_pos hnil,
          if_neg hv]
      rw [heq, hnil]
      exact ⟨[], [], by simp, by simp, by simp, Or.inr ⟨rfl, not_not.1 hv⟩⟩
  · rw [assign_eq_main m b e v hbe hnil]
    obtain ⟨mid, hl1, hshape⟩ := clearPhase_shape (b := b) (e := e) (v := v) hs hD hbe
    have hPb : ∀ p ∈ m.m_map.takeWhile (fun p => decide (p.1 < b)), p.1 < b := by
      intro p hp
      have h2 := List.mem_takeWhile_imp hp
      exact of_decide_eq_true h2
    have hD2 : valuesDistinct (insertPhase (clearPhase m.m_map b e v) b v) :=
      insertPhase_distinct hl1 hPb (mem_dropWhile_key_gt hs e) hbe
        (List.Pairwise.sublist (List.dropWhile_suffix _).sublist hs)
        (chain_take hD) (chain_drop hD) hshape
    obtain ⟨T, hTe, hThead, hform⟩ :=
      insertPhase_form hl1 hPb (mem_dropWhile_key_gt hs e) hbe
        (List.Pairwise.sublist (List.dropWhile_suffix _).sublist hs)
        (chain_drop hD) hshape
    obtain ⟨P0, hP0e⟩ : ∃ P0, m.m_map.takeWhile (fun p => decide (p.1 < b)) = P0 :=
      ⟨_, rfl⟩
    rw [hP0e] at hPb hform
    obtain ⟨l2, hl2e⟩ : ∃ l2, insertPhase (clearPhase m.m_map b e v) b v = l2 :=
      ⟨_, rfl⟩
    rw [hl2e] at hD2 hform ⊢
    have hD3 : valuesDistinct (frontStrip m.m_valBegin l2) := chain_drop hD2
    have hl4 : tailPhase m.m_valBegin (frontStrip m.m_valBegin l2)
        = frontStrip m.m_valBegin l2 :=
      tailPhase_eq_self (fun q hq => head?_frontStrip hq) hD3
    rw [hl4]
    by_cases h30 : frontStrip m.m_valBegin l2 = []
    · rw [if_pos h30]
      have h30d : l2.dropWhile (fun p => decide (p.2 = m.m_valBegin)) = [] := h30
      have hall : ∀ p ∈ l2, p.2 = m.m_valBegin := by
        intro p hp
        have h5 := List.dropWhile_eq_nil_iff.1 h30d p hp
        exact of_decide_eq_true h5
      have hvB : v = m.m_valBegin := by
        rcases hform with h | ⟨x, hgx, hxv, h⟩
        · have h6 : (b, v) ∈ l2 := by
            rw [h]
            exact List.mem_append.2 (Or.inr (List.mem_cons_self _ _))
          exact hall (b, v) h6
        · have h6 : x ∈ l2 := by
            rw [h]
            exact List.mem_append.2 (Or.inl (mem_of_getLast? hgx))
          rw [← hxv]
          exact hall x h6
      rw [h30]
      exact ⟨[], [], by simp, by simp, by simp, Or.inr ⟨rfl, hvB⟩⟩
    · rw [if_neg h30]
      have hshape3 : FixShape m.m_valBegin (frontStrip m.m_valBegin l2) b e v := by
        rcases hform with h | ⟨x, hgx, hxv, h⟩
        · cases hP0c : P0 with
          | nil =>
              by_cases hvB : v = m.m_valBegin
              · have hl3 : frontStrip m.m_valBegin l2
                    = frontStrip m.m_valBegin T := by
                  rw [h, hP0c, List.nil_append]
                  show ((b, v) :: T).dropWhile
                      (fun p => decide (p.2 = m.m_valBegin))
                    = frontStrip m.m_valBegin T
                  rw [List.dropWhile_cons, if_pos (by rw [hvB]; simp)]
                  rfl
                refine ⟨[], frontStrip m.m_valBegin T, by simp, ?_, ?_,
                  Or.inr ⟨?_, hvB⟩⟩
                · intro p hp
                  exact hTe p ((frontStrip_sublist _ _).subset hp)
                · intro q hq
                  have h6 := head?_frontStrip hq
                  rw [hvB]
                  exact h6
                · rw [hl3]
                  exact (List.nil_append _).symm
              · have hl3 : frontStrip m.m_valBegin l2 = l2 := by
                  refine frontStrip_eq_self ?_
                  intro q hq
                  rw [h, hP0c, List.nil_append] at hq
                  have h6 : (b, v) = q := by simpa using hq
                  rw [← h6]
                  exact hvB
                rw [hl3, h, hP0c]
                exact ⟨[], T, by simp, hTe, hThead, Or.inl rfl⟩
          | cons a P2 =>
              have hhead : m.m_map.head? = some a :=
                head?_takeWhile (hP0e.trans hP0c)
              have hl3 : frontStrip m.m_valBegin l2 = l2 := by
                refine frontStrip_eq_self ?_
                intro q hq
                rw [h, hP0c] at hq
                have h6 : a = q := by simpa using hq
                rw [← h6]
                exact hF a hhead
              rw [hl3, h]
              exact ⟨P0, T, hPb, hTe, hThead, Or.inl rfl⟩
        · cases hP0c : P0 with
          | nil =>
              rw [hP0c] at hgx
              simp at hgx
          | cons a P2 =>
              have hhead : m.m_map.head? = some a :=
                head?_takeWhile (hP0e.trans hP0c)
              have hl3 : frontStrip m.m_valBegin l2 = l2 := by
                refine frontStrip_eq_self ?_
                intro q hq
                rw [h, hP0c] at hq
                have h6 : a = q := by simpa using hq
                rw [← h6]
                exact hF a hhead
              rw [hl3, h]
              refine ⟨P0, T, hPb, hTe, hThead, Or.inr ⟨rfl, ?_⟩⟩
              rw [hgx]
              exact hxv
      have h9 := l4_strict b e v hs hT hnil hbe
      rw [hl2e, hl4] at h9
      have hs2 : keysSorted l2 := by
        rw [← hl2e]
        exact keysSorted_insertPhase b v (keysSorted_clearPhase b e v hs)
      have hs3 : keysSorted (frontStrip m.m_valBegin l2) :=
        List.Pairwise.sublist (frontStrip_sublist _ _) hs2
      exact fixShape_finalPhase h30 hs3 h9 (e_le_lastKeyOf m e) hshape3

theorem assign_of_not_lt {m : interval_map K V} {b e : K} {v : V}
    (hbe : ¬ b < e) : m.assign b e v = m := by
  rw [interval_map.assign, if_pos hbe]

/-- C7: assigning the same value over the same range twice in a row yields
exactly the same map state as assigning it once, for every map state the
class interface can construct. -/
theorem assign_idempotent {m : interval_map K V} (h : Reachable m)
    (b e : K) (v : V) :
    (m.assign b e v).assign b e v = m.assign b e v := by
  by_cases hbe : b < e
  · have hFI : FullInv m := reachable_fullinv h
    have hFI2 : FullInv (m.assign b e v) := fullinv_assign b e v hFI
    have hshape := assign_shape (b := b) (e := e) (v := v) hFI hbe
    rw [← assign_valBegin m b e v] at hshape
    exact assign_fixpoint hbe hFI2.1 hFI2.2 hshape
  · exact assign_of_not_lt hbe

theorem assign_idempotent_witness :
    Reachable (interval_map.ctor 'A' : interval_map Int Char)
      ∧ (((interval_map.ctor 'A' : interval_map Int Char).assign 0 5 'B').assign
            0 5 'B'
          = (interval_map.ctor 'A' : interval_map Int Char).assign 0 5 'B') :=
  ⟨Reachable.ctor 'A', assign_idempotent (Reachable.ctor 'A') 0 5 'B'⟩

end IntervalMapSpec
